import Mathlib

/-!
Verification development for the tm_dedimania weekly-statistics core:
record deduplication, competition-weighted scoring, leaderboard ranking,
rivalry detection and time-based achievement analysis, shallowly embedded
from `backend/Final_Weekly_stats/gaming_leaderboard.py` and
`backend/Final_Weekly_stats/weekly_team_stats.py`.

Python values are modelled as follows: `str` as `String`, `int` as `Int` or
`Nat`, `float` as `ℚ` (the arithmetic the scripts perform on scores involves
only decimal constants; the embedding works with exact rationals),
`float('inf')` as the `none` case of an `Option`, dictionaries as
insertion-ordered association lists (`List (κ × β)` updated by `updD`, which
preserves the position of existing keys and appends new ones, exactly the
iteration-order semantics of CPython dicts), and exceptions caught by
`try/except` as `Option` results.
-/

namespace TmDedimania

/-- Python `str.isdigit()` restricted to ASCII: true iff the string is
non-empty and every character is a decimal digit. -/
def pyIsDigit (s : String) : Bool :=
  !s.isEmpty && s.toList.all (·.isDigit)

/-- Numeric value of a pure digit string (the `int(...)` applied after an
`isdigit` guard in `gaming_leaderboard.py`). -/
def digitsToNat (s : String) : Nat :=
  s.toList.foldl (fun acc c => acc * 10 + (c.toNat - 48)) 0

/-- ASCII whitespace, as stripped by Python `int()` / `float()` before
parsing. -/
def pyIsSpace (c : Char) : Bool :=
  c = ' ' || c = '\t' || c = '\n' || c = '\r' || c = '\x0b' || c = '\x0c'

/-- Lexicographic comparison of character lists (structural recursion;
Lean's `String.ltb` is well-founded and does not evaluate inside the
kernel). -/
def charListLt : List Char → List Char → Bool
  | [], [] => false
  | [], _ :: _ => true
  | _ :: _, [] => false
  | x :: xs, y :: ys =>
    if x < y then true else if y < x then false else charListLt xs ys

/-- Python string `<`: lexicographic by code point. -/
def strLt (a b : String) : Bool :=
  charListLt a.toList b.toList

/-- Python `int(s)` on strings: surrounding whitespace allowed, then an
optional single sign, then a non-empty run of digits.  Returns `none` when
`int()` would raise `ValueError`.  (Underscore digit grouping, accepted by
CPython, is not modelled; no rank string in this data set uses it.) -/
def pyInt? (s : String) : Option Int :=
  let core := (s.toList.dropWhile pyIsSpace).reverse.dropWhile pyIsSpace |>.reverse
  match core with
  | [] => none
  | c :: rest =>
    let (neg, digits) :=
      if c = '-' then (true, rest)
      else if c = '+' then (false, rest)
      else (false, c :: rest)
    if digits ≠ [] ∧ digits.all (·.isDigit) then
      let v : Int := (digits.foldl (fun acc d => acc * 10 + (d.toNat - 48)) 0 : Nat)
      some (if neg then -v else v)
    else none

/-- Python `str.split(sep)` for a single-character separator, on the
character list (structural recursion; `String.splitOn` itself is
well-founded and does not evaluate inside the kernel). -/
def splitOnChar (c : Char) : List Char → List (List Char)
  | [] => [[]]
  | x :: xs =>
    let r := splitOnChar c xs
    if x = c then [] :: r
    else
      match r with
      | [] => [[x]]
      | y :: ys => (x :: y) :: ys

/-- Python `float(s)` on plain decimal numerals: surrounding whitespace, an
optional sign, digits with at most one decimal point (digits required on at
least one side).  Returns `none` when `float()` would raise.  (Exponent
notation and the `inf`/`nan` literals are not modelled; the time strings this
is applied to are plain `M:SS.cc` components.) -/
def pyFloatCs? (cs : List Char) : Option ℚ :=
  let core := (cs.dropWhile pyIsSpace).reverse.dropWhile pyIsSpace |>.reverse
  match core with
  | [] => none
  | c :: rest =>
    let (neg, body) :=
      if c = '-' then (true, rest)
      else if c = '+' then (false, rest)
      else (false, c :: rest)
    let intPart := body.takeWhile (·.isDigit)
    let after := body.drop intPart.length
    let value? : Option ℚ :=
      match after with
      | [] => if intPart = [] then none else
          some ((intPart.foldl (fun acc d => acc * 10 + (d.toNat - 48)) 0 : Nat) : ℚ)
      | '.' :: fracPart =>
        if fracPart.all (·.isDigit) ∧ (intPart ≠ [] ∨ fracPart ≠ []) then
          let ip : ℚ := ((intPart.foldl (fun acc d => acc * 10 + (d.toNat - 48)) 0 : Nat) : ℚ)
          let fp : ℚ := ((fracPart.foldl (fun acc d => acc * 10 + (d.toNat - 48)) 0 : Nat) : ℚ)
          some (ip + fp / ((10 : ℚ) ^ fracPart.length))
        else none
      | _ => none
    value?.map (fun v => if neg then -v else v)

/-- `float(s)` on a string, via `pyFloatCs?`. -/
def pyFloat? (s : String) : Option ℚ :=
  pyFloatCs? s.toList

/-- One row of the `dedimania_records` feed.  `gaming_leaderboard.py` reads
these as dicts (`Login`, `NickName`, `Challenge`, `Record`, `Rank`,
`RecordDate`, …) and `weekly_team_stats.py` as 9-tuples
`(player_login, NickName, Challenge, Record, Rank, RecordDate, Envir, Mode,
server)`; both carry the same field values, which this structure holds once. -/
structure Rec where
  login : String
  nick : String
  track : String
  time : String
  rank : String
  date : String
  envir : String
  mode : String
  server : String
deriving DecidableEq, Repr

/-- CPython-dict update on an insertion-ordered association list: an existing
key is updated in place (keeping its position), a new key is appended. -/
def updD {κ β : Type _} [DecidableEq κ] (k : κ) (f : Option β → β) :
    List (κ × β) → List (κ × β)
  | [] => [(k, f none)]
  | (k', v) :: t => if k = k' then (k, f (some v)) :: t else (k', v) :: updD k f t

/-- Dict lookup on an association list. -/
def lookupD {κ β : Type _} [DecidableEq κ] (k : κ) : List (κ × β) → Option β
  | [] => none
  | (k', v) :: t => if k = k' then some v else lookupD k t

/-- `if key not in d or val(new) < val(d[key])` as an update of an optional
slot: keep the first element, replace it only on a strictly smaller value. -/
def stepBest {α : Type _} (val : α → Int) (old : Option α) (r : α) : α :=
  match old with
  | none => r
  | some b => if val r < val b then r else b

/-- Generic best-record fold shared by the three dedup-style loops in the
sources (`deduplicate_player_records`, `deduplicate_records`, and the
per-track `player_best` loop of `detect_rivalries`): group by `key`, keep the
first element, and replace it only when a later element's `val` is strictly
smaller. -/
def dedupFold {α κ : Type _} [DecidableEq κ] (key : α → κ) (val : α → Int)
    (l : List α) : List (κ × α) :=
  l.foldl (fun acc r => updD (key r) (fun old => stepBest val old r) acc) []

/-- The running best of a non-empty group, seeded with its first element:
the value every per-key slot of `dedupFold` holds after its group has been
processed. -/
def runningBest {α : Type _} (val : α → Int) (b : α) (g : List α) : α :=
  g.foldl (fun b r => if val r < val b then r else b) b

/-- The record a dedup-style loop keeps for one group: none for an empty
group, otherwise the running best seeded with the first element. -/
def groupBest? {α : Type _} (val : α → Int) : List α → Option α
  | [] => none
  | x :: g => some (runningBest val x g)

/-- Rank coercion used by `deduplicate_player_records` in
`gaming_leaderboard.py`: `int(rank_str) if rank_str.isdigit() else 999`. -/
def glCoerce (s : String) : Int :=
  if pyIsDigit s then (digitsToNat s : Int) else 999

/-- Rank coercion used by `deduplicate_records` in `weekly_team_stats.py`:
`int(rank) if rank else 999` inside `try/except: rank_int = 999` — the empty
string maps to 999 and a failing `int()` parse also maps to 999, but signed
or whitespace-padded numerals are parsed by `int()`. -/
def wtsCoerce (s : String) : Int :=
  if s = "" then 999
  else match pyInt? s with
    | some v => v
    | none => 999

/-- The key a record is deduplicated under, and the validity guard
(`if not login or not track: continue`) shared by both dedup functions. -/
def recKey (r : Rec) : String × String := (r.login, r.track)

/-- `if not login or not track: continue`. -/
def validRec (r : Rec) : Bool :=
  !r.login.isEmpty && !r.track.isEmpty

/-- Deduplication loop common to the two sources, parameterised by the rank
coercion in which the two copies differ: skip records with an empty login or
track, group the rest by `(login, track)` in a dict, keep the record with the
strictly lower coerced rank (first encountered wins ties), and return
`list(track_records.values())`. -/
def dedupBy (coerce : String → Int) (records : List Rec) : List Rec :=
  (dedupFold recKey (fun r => coerce r.rank) (records.filter validRec)).map (·.2)

/-- `deduplicate_player_records` from `gaming_leaderboard.py` (lines
229-267). -/
def deduplicate_player_records (records : List Rec) : List Rec :=
  dedupBy glCoerce records

/-- `WeeklyStatsGenerator.deduplicate_records` from `weekly_team_stats.py`
(lines 90-127). -/
def deduplicate_records (records : List Rec) : List Rec :=
  dedupBy wtsCoerce records

/-- `get_competition_multiplier` from `gaming_leaderboard.py` (lines
433-448); the argument is `challenge_cache.get(challenge_name, None)`. -/
def get_competition_multiplier (total_records : Option Int) : ℚ :=
  match total_records with
  | none => 1/2
  | some n =>
    if n ≤ 0 then 1/2
    else if n = 1 then 1/10
    else if n < 5 then 1/5
    else if n < 10 then 2/5
    else if n < 15 then 3/5
    else if n < 20 then 4/5
    else 1

/-- The multiplier step function exactly as the specification's table states
it (§4.3): null/≤0 → 0.5, 1 → 0.1, 2–4 → 0.2, 5–9 → 0.4, 10–14 → 0.6,
15–19 → 0.8, ≥20 → 1.0. -/
def specMultiplier (total_participants : Option Int) : ℚ :=
  match total_participants with
  | none => 1/2
  | some n =>
    if n ≤ 0 then 1/2
    else if n = 1 then 1/10
    else if 2 ≤ n ∧ n ≤ 4 then 1/5
    else if 5 ≤ n ∧ n ≤ 9 then 2/5
    else if 10 ≤ n ∧ n ≤ 14 then 3/5
    else if 15 ≤ n ∧ n ≤ 19 then 4/5
    else 1

/-- Python `round(x, 1)`: round half to even at one decimal place, over exact
rationals (the scripts' float arithmetic is modelled by ℚ throughout). -/
def pyRound1 (q : ℚ) : ℚ :=
  let x := q * 10
  let n := ⌊x⌋
  let r := x - n
  let m : ℤ :=
    if r < 1/2 then n
    else if 1/2 < r then n + 1
    else if Even n then n else n + 1
  (m : ℚ) / 10

/-- Per-record base points of `calculate_points` in `gaming_leaderboard.py`
(lines 450-483): digit ranks score 5 / 3 / 2 / 1 by the `rank == 1`,
`rank <= 3`, `rank <= 5`, else chain; a non-empty non-digit rank still counts
as a record worth 1; an empty rank scores 0. -/
def basePoints (rank_str : String) : Nat :=
  if pyIsDigit rank_str then
    let rank := digitsToNat rank_str
    if rank = 1 then 5
    else if rank ≤ 3 then 3
    else if rank ≤ 5 then 2
    else 1
  else if rank_str ≠ "" then 1
  else 0

/-- Base points exactly as the claim's case split states them: 5 for numeric
rank 1, 3 for ranks 2–3, 2 for ranks 4–5, 1 for numeric rank ≥ 6 or any
non-empty non-numeric rank, 0 for an empty rank (no case covers a numeric
rank of 0). -/
def claimBasePoints (rank_str : String) : Nat :=
  if pyIsDigit rank_str then
    let rank := digitsToNat rank_str
    if rank = 1 then 5
    else if 2 ≤ rank ∧ rank ≤ 3 then 3
    else if 4 ≤ rank ∧ rank ≤ 5 then 2
    else if 6 ≤ rank then 1
    else 0
  else if rank_str ≠ "" then 1
  else 0

/-- `calculate_points` from `gaming_leaderboard.py` (lines 450-483): sum of
`base_points * get_competition_multiplier(challenge_cache.get(challenge, None))`
over the records, rounded to one decimal place. -/
def calculate_points (records : List Rec) (challenge_cache : List (String × Int)) : ℚ :=
  pyRound1 (records.foldl
    (fun pts r =>
      pts + (basePoints r.rank : ℚ) *
        get_competition_multiplier (lookupD r.track challenge_cache)) 0)

/-- `WeeklyStatsGenerator.format_time` from `weekly_team_stats.py` (lines
55-68), returning seconds; `none` models `float('inf')` (empty or unparsable
time strings; a string containing `':'` that does not split into exactly two
`float()`-parsable parts falls through to `float(time_str)`, which raises). -/
def format_time (time_str : String) : Option ℚ :=
  if time_str = "" then none
  else if time_str.toList.contains ':' then
    match splitOnChar ':' time_str.toList with
    | [m, s] =>
      match pyFloatCs? m, pyFloatCs? s with
      | some mv, some sv => some (mv * 60 + sv)
      | _, _ => none
    | _ => none
  else pyFloat? time_str

/-- The nickname map computed by the body of
`WeeklyStatsGenerator.get_all_latest_nicknames` (lines 161-177): for each
login with at least one non-empty `NickName`, the nickname of its record
with the (string-)latest `RecordDate`; the first date seen for a login wins
ties, and the two parallel dicts of the source are modelled as one dict
`login → (latest_date, nick)`. -/
def computeLatestNicknamesAux (records : List Rec) : List (String × (String × String)) :=
  records.foldl
    (fun acc r =>
      if r.nick ≠ "" then
        match lookupD r.login acc with
        | none => updD r.login (fun _ => (r.date, r.nick)) acc
        | some (d, _) =>
          if strLt d r.date then updD r.login (fun _ => (r.date, r.nick)) acc else acc
      else acc) []

/-- `login_to_nick` as returned by `get_all_latest_nicknames`. -/
def computeLatestNicknames (records : List Rec) : List (String × String) :=
  (computeLatestNicknamesAux records).map (fun e => (e.1, e.2.2))

/-- `WeeklyStatsGenerator.get_all_latest_nicknames` with its hidden
`self._latest_nicks_cache` made explicit: the generator state is the cache
(`none` on a fresh instance), the method returns the map together with the
updated state, and a populated cache is returned as-is, ignoring `records`. -/
def get_all_latest_nicknames (cache : Option (List (String × String)))
    (records : List Rec) : List (String × String) × Option (List (String × String)) :=
  match cache with
  | some m => (m, some m)
  | none =>
    let m := computeLatestNicknames records
    (m, some m)

/-- A parsed per-track entry of `detect_rivalries` (`weekly_team_stats.py`
lines 190-202): the dict `{'login','nick','rank','time'}` appended to
`track_records[track]`. -/
structure PRec where
  login : String
  nick : String
  rank : Int
  time : String
deriving DecidableEq, Repr

/-- The rank parse of `detect_rivalries`: `int(rank) if rank else 999`
inside a `try` whose `except` clause skips the record — so an empty rank
becomes 999 but a non-empty rank that `int()` rejects makes the whole record
disappear from the analysis (`none` here). -/
def rivalryRank? (rank : String) : Option Int :=
  if rank = "" then some 999 else pyInt? rank

/-- The `track_records` grouping of `detect_rivalries`: parsed records
collected per track in record order; records whose rank parse raises are
skipped. -/
def trackRecords (records : List Rec) : List (String × List PRec) :=
  records.foldl
    (fun acc r =>
      match rivalryRank? r.rank with
      | none => acc
      | some ri =>
        updD r.track (fun o => o.getD [] ++ [⟨r.login, r.nick, ri, r.time⟩]) acc) []

/-- The `player_best` loop of `detect_rivalries`: per login, keep the entry
with the strictly lower rank, first encountered wins ties. -/
def playerBest (l : List PRec) : List (String × PRec) :=
  dedupFold (·.login) (·.rank) l

/-- The hard-coded exclusion in `detect_rivalries`:
`players = [login for login in player_best.keys() if login != 'yogeshdeshwari']`. -/
def excludedLogin : String := "yogeshdeshwari"

/-- The per-track `players` list of `detect_rivalries`. -/
def playersOf (l : List PRec) : List String :=
  ((playerBest l).map (·.1)).filter (· ≠ excludedLogin)

/-- `tuple(sorted([p1_login, p2_login]))`: the two-element sort swaps
exactly when the second login compares lexicographically below the first. -/
def sortPair (a b : String) : String × String :=
  if strLt b a then (b, a) else (a, b)

/-- The ordered pairs `(players[i], players[j])`, `i < j`, of the nested
rivalry loops. -/
def allPairs {α : Type _} : List α → List (α × α)
  | [] => []
  | x :: xs => xs.map (fun y => (x, y)) ++ allPairs xs

/-- `rivalry_data`: rivalry key → track → login → wins, as nested
insertion-ordered dicts. -/
abbrev WinMap := List (String × Nat)

/-- track → per-login wins for one rivalry key. -/
abbrev TrackWins := List (String × WinMap)

/-- The whole `rivalry_data` accumulator. -/
abbrev RData := List ((String × String) × TrackWins)

/-- `rivalry_data[rivalry_key][track][winner] += 1` on the nested
defaultdicts. -/
def addWin (k : String × String) (t w : String) (data : RData) : RData :=
  updD k (fun mo =>
    updD t (fun wo =>
      updD w (fun co => co.getD 0 + 1) (wo.getD [])) (mo.getD [])) data

/-- One iteration of the pair loop of `detect_rivalries`: compare the two
players' best entries on the track; the strictly lower rank takes a win,
equal ranks award nothing. -/
def pairStep (t : String) (best : List (String × PRec)) (data : RData)
    (pq : String × String) : RData :=
  match lookupD pq.1 best, lookupD pq.2 best with
  | some r1, some r2 =>
    if r1.rank < r2.rank then addWin (sortPair pq.1 pq.2) t pq.1 data
    else if r2.rank < r1.rank then addWin (sortPair pq.1 pq.2) t pq.2 data
    else data
  | _, _ => data

/-- Processing of one `track_records` group (`if len(records_list) >= 2`
guard, `player_best` fold, nested pair loops). -/
def processTrack (data : RData) (tl : String × List PRec) : RData :=
  if 2 ≤ tl.2.length then
    (allPairs (playersOf tl.2)).foldl (pairStep tl.1 (playerBest tl.2)) data
  else data

/-- The fully accumulated `rivalry_data` of `detect_rivalries`. -/
def rivalry_data (records : List Rec) : RData :=
  (trackRecords records).foldl processTrack []

/-- The rivalry keys that pass the `if shared_tracks >= 3` gate of
`detect_rivalries`, in accumulation order: exactly the pairs for which an
output entry is appended. -/
def qualifyingPairs (records : List Rec) : List (String × String) :=
  (rivalry_data records).foldl
    (fun acc e => if 3 ≤ e.2.length then acc ++ [e.1] else acc) []

/-- One output entry of `detect_rivalries`. -/
structure Rivalry where
  player1 : String
  player2 : String
  shared_tracks : Nat
  p1_wins : Nat
  p2_wins : Nat
  leader : String
  score : String
  tracks : List String
deriving DecidableEq, Repr

/-- Total wins of a login for one rivalry key:
`sum(track_wins.get(login, 0) for track_wins in track_data.values())`. -/
def totalWins (login : String) (td : TrackWins) : Nat :=
  (td.map (fun e => (lookupD login e.2).getD 0)).sum

/-- Build one `rivalries.append(...)` entry of `detect_rivalries` from a
qualifying rivalry key. -/
def mkRivalryEntry (ltn : List (String × String)) (k : String × String)
    (td : TrackWins) : Rivalry :=
  let w1 := totalWins k.1 td
  let w2 := totalWins k.2 td
  let nick1 := (lookupD k.1 ltn).getD k.1
  let nick2 := (lookupD k.2 ltn).getD k.2
  let shared := td.length
  if w2 < w1 then
    ⟨nick1, nick2, shared, w1, w2, nick1, toString w1 ++ "-" ++ toString w2,
      td.map (·.1)⟩
  else if w1 < w2 then
    ⟨nick2, nick1, shared, w2, w1, nick2, toString w2 ++ "-" ++ toString w1,
      td.map (·.1)⟩
  else if strLt nick1 nick2 then
    ⟨nick1, nick2, shared, w1, w2, "Tied", toString w1 ++ "-" ++ toString w2,
      td.map (·.1)⟩
  else
    ⟨nick2, nick1, shared, w2, w1, "Tied", toString w2 ++ "-" ++ toString w1,
      td.map (·.1)⟩

/-- The unsorted `rivalries` list of `detect_rivalries` (nicknames are taken
from a freshly computed map, the fresh-instance behaviour of the memoized
`get_all_latest_nicknames`; see the C8 analysis). -/
def mkRivalries (records : List Rec) : List Rivalry :=
  let ltn := computeLatestNicknames records
  (rivalry_data records).foldl
    (fun acc e =>
      if 3 ≤ e.2.length then acc ++ [mkRivalryEntry ltn e.1 e.2] else acc) []

/-- Stable insertion into a descending-by-key list: the new element is placed
before the first strictly smaller key, hence after every earlier element with
an equal key.  This models CPython's stable `sort(key=..., reverse=True)` /
`sorted(..., reverse=True)`. -/
def insDesc {α κ : Type _} [LinearOrder κ] (key : α → κ) (x : α) :
    List α → List α
  | [] => [x]
  | y :: ys => if key y < key x then x :: y :: ys else y :: insDesc key x ys

/-- Stable descending sort by key (insertion sort; stability and sortedness
are proved below). -/
def sortDesc {α κ : Type _} [LinearOrder κ] (key : α → κ) (l : List α) : List α :=
  l.foldl (fun acc x => insDesc key x acc) []

/-- `detect_rivalries` (lines 204-288): accumulate, gate on
`shared_tracks >= 3`, and return
`sorted(rivalries, key=lambda x: x['shared_tracks'], reverse=True)`. -/
def detect_rivalries (records : List Rec) : List Rivalry :=
  sortDesc (·.shared_tracks) (mkRivalries records)

/-- A row of `player_table` in `gaming_leaderboard.py` (nickname, top5,
top3, top1, total_records, avg_rank, points, login). -/
structure PlayerRow where
  nickname : String
  top5 : Nat
  top3 : Nat
  top1 : Nat
  total_records : Nat
  avg_rank : ℚ
  points : ℚ
  login : String
deriving DecidableEq, Repr

/-- The sort key `(x[6], x[3], x[2], x[1])` of
`player_table.sort(key=..., reverse=True)` (`gaming_leaderboard.py` lines
535-536 and 217-218), as a lexicographically ordered tuple
(points, top1, top3, top5). -/
def rowKey (p : PlayerRow) : ℚ ×ₗ ℕ ×ₗ ℕ ×ₗ ℕ :=
  toLex (p.points, toLex (p.top1, toLex (p.top3, p.top5)))

/-- The Leaderboard Ranker's sort:
`player_table.sort(key=lambda x: (x[6], x[3], x[2], x[1]), reverse=True)`. -/
def sortPlayerTable (l : List PlayerRow) : List PlayerRow :=
  sortDesc rowKey l

/-- A calendar date, as produced by `datetime.strptime(..., '%Y-%m-%d')`. -/
structure Date where
  year : Nat
  month : Nat
  day : Nat
deriving DecidableEq, Repr

/-- Gregorian leap year. -/
def isLeap (y : Nat) : Bool :=
  y % 4 = 0 && (y % 100 ≠ 0 || y % 400 = 0)

/-- Days in a month. -/
def daysInMonth (y m : Nat) : Nat :=
  if m = 2 then (if isLeap y then 29 else 28)
  else if m = 4 ∨ m = 6 ∨ m = 9 ∨ m = 11 then 30
  else 31

/-- Parse a run of `minLen` to `maxLen` digits. -/
def parseField (minLen maxLen : Nat) (cs : List Char) : Option Nat :=
  if minLen ≤ cs.length ∧ cs.length ≤ maxLen ∧ cs ≠ [] ∧ cs.all (·.isDigit) then
    some (cs.foldl (fun acc c => acc * 10 + (c.toNat - 48)) 0)
  else none

/-- `datetime.strptime(s, '%Y-%m-%d')`: a 4-digit year, 1-2 digit month and
day, validated as a real calendar date (`ValueError` modelled as `none`). -/
def parseDateCs (cs : List Char) : Option Date :=
  match splitOnChar '-' cs with
  | [ys, ms, ds] =>
    match parseField 4 4 ys, parseField 1 2 ms, parseField 1 2 ds with
    | some y, some m, some d =>
      if 1 ≤ y ∧ 1 ≤ m ∧ m ≤ 12 ∧ 1 ≤ d ∧ d ≤ daysInMonth y m then
        some ⟨y, m, d⟩
      else none
    | _, _, _ => none
  | _ => none

/-- `strptime('%Y-%m-%d')` on a string. -/
def parseDate (s : String) : Option Date :=
  parseDateCs s.toList

/-- `'%H:%M:%S'` with range validation; only the hour matters downstream. -/
def parseHMS (cs : List Char) : Option (Nat × Nat × Nat) :=
  match splitOnChar ':' cs with
  | [hs, ms, ss] =>
    match parseField 1 2 hs, parseField 1 2 ms, parseField 1 2 ss with
    | some h, some m, some sec =>
      if h ≤ 23 ∧ m ≤ 59 ∧ sec ≤ 59 then some (h, m, sec) else none
    | _, _, _ => none
  | _ => none

/-- The timestamp parse of `analyze_time_masters` (`weekly_team_stats.py`):
`date.split(' ', 1)` then `strptime('%Y-%m-%d %H:%M:%S')` when a time part is
present, else `strptime('%Y-%m-%d')`; any parse failure hits the
`except: continue`.  Returns the date and the hour. -/
def parseRecordDatetime (s : String) : Option (Date × Nat) :=
  match splitOnChar ' ' s.toList with
  | [d] => (parseDateCs d).map (fun dd => (dd, 0))
  | [d, t] =>
    match parseDateCs d, parseHMS t with
    | some dd, some (h, _, _) => some (dd, h)
    | _, _ => none
  | _ => none

/-- Chronological comparison of `datetime.date` values. -/
def dateLE (a b : Date) : Bool :=
  a.year < b.year ||
    (a.year = b.year &&
      (a.month < b.month || (a.month = b.month && a.day ≤ b.day)))

/-- Days since 1970-01-01 (Howard Hinnant's `days_from_civil`, the standard
proleptic-Gregorian day count; Lean's `Int` division truncates exactly like
the C++ original). -/
def daysFromCivil (y m d : Int) : Int :=
  let y' := if m ≤ 2 then y - 1 else y
  let era := (if 0 ≤ y' then y' else y' - 399) / 400
  let yoe := y' - era * 400
  let mp := (m + 9) % 12
  let doy := (153 * mp + 2) / 5 + d - 1
  let doe := yoe * 365 + yoe / 4 - yoe / 100 + doy
  era * 146097 + doe - 719468

/-- `datetime.weekday()`: Monday = 0 … Sunday = 6 (1970-01-01 was a
Thursday, weekday 3). -/
def pyWeekday (dt : Date) : Nat :=
  ((daysFromCivil dt.year dt.month dt.day + 3) % 7).toNat

/-- The `weekend_warrior` counting dict of `analyze_time_masters`
(`weekly_team_stats.py` lines 704-738): per login, the number of records
whose parsed timestamp lies in the reporting window and falls on Saturday
(weekday 5) or Sunday (weekday 6).  The `get_weekly_date_range()` window,
computed from the wall clock in the source, is modelled as the explicit
`startD`/`endD` parameters (the spec treats the date window as an external
parameter of the core). -/
def weekendCounts (records : List Rec) (startD endD : Date) : List (String × Nat) :=
  records.foldl
    (fun acc r =>
      match parseRecordDatetime r.date with
      | none => acc
      | some (d, _) =>
        if dateLE startD d && dateLE d endD then
          if pyWeekday d = 5 ∨ pyWeekday d = 6 then
            updD r.login (fun o => o.getD 0 + 1) acc
          else acc
        else acc) []

/-- `sum(1 for r in records if r[0] == login)` — the denominator of the
weekend percentage counts all records of the login, windowed or not. -/
def totalRecordsOf (records : List Rec) (login : String) : Nat :=
  (records.filter (·.login == login)).length

/-- One element of the `weekend_totals` list: `(login, weekend_count,
percentage)`. -/
structure WWEntry where
  login : String
  count : Nat
  percentage : ℚ
deriving DecidableEq, Repr

/-- The `weekend_totals` list of `analyze_time_masters`. -/
def weekend_totals (records : List Rec) (startD endD : Date) : List WWEntry :=
  (weekendCounts records startD endD).map
    (fun e =>
      let total := totalRecordsOf records e.1
      ⟨e.1, e.2, if 0 < total then (e.2 : ℚ) / total * 100 else 0⟩)

/-- Python `max(l, key=f)`: the first element with the maximal key (a later
element replaces the current best only when strictly greater). -/
def pyMaxBy {α κ : Type _} [LinearOrder κ] (key : α → κ) : List α → Option α
  | [] => none
  | x :: xs => some (xs.foldl (fun b y => if key b < key y then y else b) x)

/-- The weekend-warrior result of `analyze_time_masters`. -/
structure WWResult where
  player : String
  count : Nat
  percentage : ℚ
deriving DecidableEq, Repr

/-- The weekend-warrior fragment of
`WeeklyStatsGenerator.analyze_time_masters` (lines 753-766):
`best_weekend = max(weekend_totals, key=lambda x: x[1])` — the key is the raw
weekend count `x[1]`, the percentage `x[2]` is computed and reported but not
used for selection.  Nicknames come from the freshly computed map (the
fresh-instance behaviour of the memoized `get_all_latest_nicknames`). -/
def analyze_weekend_warrior (records : List Rec) (startD endD : Date) :
    Option WWResult :=
  let player_nicks := computeLatestNicknames records
  match pyMaxBy (·.count) (weekend_totals records startD endD) with
  | none => none
  | some best =>
    some ⟨(lookupD best.login player_nicks).getD best.login, best.count,
      best.percentage⟩

/-- The spec-side notion needed by claim C4 as stated: the distinct tracks on
which two given players both have a record in the input record set (whatever
the ranks). -/
def sharedAppearTracks (records : List Rec) (p q : String) : List String :=
  ((records.map (·.track)).dedup).filter
    (fun t =>
      (records.any (fun r => r.login == p && r.track == t)) &&
      (records.any (fun r => r.login == q && r.track == t)))

/-- The best (minimum) parsed rank of a player on one track's parsed entry
list, per the amended C4: the value `player_best[login]['rank']` takes when
the login is present. -/
def bestRank? (l : List PRec) (p : String) : Option Int :=
  ((l.filter (·.login == p)).map (·.rank)).min?

/-- Amended C4's decisive-track predicate on one track's parsed entry list:
both players are distinct from the excluded login, both have a parsed record
on the track, and their best ranks differ (ties and unparsable-rank records
never produce a head-to-head win). -/
def decisiveOn (l : List PRec) (p q : String) : Bool :=
  p ≠ excludedLogin && q ≠ excludedLogin &&
    (match bestRank? l p, bestRank? l q with
     | some a, some b => a ≠ b
     | _, _ => false)

/-- Number of distinct tracks with a decisive head-to-head between two
players. -/
def decisiveTrackCount (records : List Rec) (p q : String) : Nat :=
  ((trackRecords records).filter (fun tl => decisiveOn tl.2 p q)).length

/-- The parsed entries a given track receives in the `track_records`
grouping of `detect_rivalries`: the records on that track whose rank parse
succeeds, in input order (a record whose rank parse raises contributes
nothing for any track). -/
def parsedOnTrack (records : List Rec) (t : String) : List PRec :=
  records.filterMap (fun r =>
    match rivalryRank? r.rank with
    | none => none
    | some ri => if r.track = t then some ⟨r.login, r.nick, ri, r.time⟩ else none)

/-! ### Association-list dictionary lemmas -/

theorem lookupD_updD {κ β : Type _} [DecidableEq κ] (k k' : κ) (f : Option β → β)
    (l : List (κ × β)) :
    lookupD k (updD k' f l) =
      if k = k' then some (f (lookupD k' l)) else lookupD k l := by
  induction l with
  | nil => by_cases h : k = k' <;> simp [updD, lookupD, h]
  | cons e t ih =>
    obtain ⟨k₀, v⟩ := e
    by_cases h1 : k' = k₀
    · subst h1
      by_cases h2 : k = k' <;> simp [updD, lookupD, h2]
    · by_cases h2 : k = k₀
      · subst h2
        have h3 : ¬ k = k' := fun h => h1 h.symm
        simp [updD, lookupD, h1, h3]
      · simp [updD, lookupD, h1, h2, ih]

theorem lookupD_updD_self {κ β : Type _} [DecidableEq κ] (k : κ) (f : Option β → β)
    (l : List (κ × β)) :
    lookupD k (updD k f l) = some (f (lookupD k l)) := by
  simp [lookupD_updD]

theorem lookupD_updD_ne {κ β : Type _} [DecidableEq κ] {k k' : κ} (h : k ≠ k')
    (f : Option β → β) (l : List (κ × β)) :
    lookupD k (updD k' f l) = lookupD k l := by
  simp [lookupD_updD, h]

theorem keys_updD {κ β : Type _} [DecidableEq κ] (k : κ) (f : Option β → β)
    (l : List (κ × β)) :
    (updD k f l).map (·.1) =
      if k ∈ l.map (·.1) then l.map (·.1) else l.map (·.1) ++ [k] := by
  induction l with
  | nil => simp [updD]
  | cons e t ih =>
    obtain ⟨k₀, v⟩ := e
    by_cases h1 : k = k₀
    · subst h1
      simp [updD]
    · simp [updD, h1, ih]
      by_cases h2 : k ∈ t.map (·.1) <;> simp [h1, h2]

theorem nodup_keys_updD {κ β : Type _} [DecidableEq κ] {k : κ} {f : Option β → β}
    {l : List (κ × β)} (h : (l.map (·.1)).Nodup) :
    ((updD k f l).map (·.1)).Nodup := by
  rw [keys_updD]
  by_cases h2 : k ∈ l.map (·.1)
  · simpa [h2]
  · simp only [h2, if_false]
    refine List.Nodup.append h (List.nodup_singleton k) ?_
    intro a ha hak
    simp only [List.mem_singleton] at hak
    subst hak
    exact h2 ha

theorem lookupD_eq_none_iff {κ β : Type _} [DecidableEq κ] {k : κ} {l : List (κ × β)} :
    lookupD k l = none ↔ k ∉ l.map (·.1) := by
  induction l with
  | nil => simp [lookupD]
  | cons e t ih =>
    obtain ⟨k₀, v⟩ := e
    by_cases h : k = k₀ <;> simp [lookupD, h, ih]

theorem lookupD_mem {κ β : Type _} [DecidableEq κ] {k : κ} {v : β} {l : List (κ × β)}
    (h : lookupD k l = some v) : (k, v) ∈ l := by
  induction l with
  | nil => simp [lookupD] at h
  | cons e t ih =>
    obtain ⟨k₀, v₀⟩ := e
    by_cases hk : k = k₀
    · subst hk
      simp [lookupD] at h
      simp [h]
    · simp [lookupD, hk] at h
      exact List.mem_cons_of_mem _ (ih h)

theorem mem_lookupD {κ β : Type _} [DecidableEq κ] {k : κ} {v : β} {l : List (κ × β)}
    (hn : (l.map (·.1)).Nodup) (h : (k, v) ∈ l) : lookupD k l = some v := by
  induction l with
  | nil => simp at h
  | cons e t ih =>
    obtain ⟨k₀, v₀⟩ := e
    simp only [List.map_cons, List.nodup_cons] at hn
    rcases List.mem_cons.mp h with h0 | h0
    · injection h0 with ha hb
      subst ha
      subst hb
      simp [lookupD]
    · have hk : k ≠ k₀ := by
        rintro rfl
        exact hn.1 (by simpa using ⟨v, h0⟩)
      simp [lookupD, hk]
      exact ih hn.2 h0

theorem mem_updD {κ β : Type _} [DecidableEq κ] {e : κ × β} {k : κ}
    {f : Option β → β} {l : List (κ × β)} (h : e ∈ updD k f l) :
    e ∈ l ∨ e = (k, f (lookupD k l)) := by
  induction l with
  | nil =>
    simp [updD] at h
    simp [h, lookupD]
  | cons e₀ t ih =>
    obtain ⟨k₀, v₀⟩ := e₀
    by_cases hk : k = k₀
    · subst hk
      simp [updD, lookupD] at h ⊢
      tauto
    · simp [updD, hk, lookupD] at h ⊢
      rcases h with h | h
      · tauto
      · rcases ih h with h | h <;> tauto

theorem updD_of_not_mem {κ β : Type _} [DecidableEq κ] {k : κ} {l : List (κ × β)}
    (f : Option β → β) (h : k ∉ l.map (·.1)) :
    updD k f l = l ++ [(k, f none)] := by
  induction l with
  | nil => simp [updD]
  | cons e t ih =>
    obtain ⟨k₀, v₀⟩ := e
    simp only [List.map_cons, List.mem_cons, not_or] at h
    have : lookupD k t = none := lookupD_eq_none_iff.mpr h.2
    simp [updD, h.1, ih h.2]

/-- Concrete-record builder for witnesses and counterexamples. -/
def mkRec (login track rank nick date : String) : Rec :=
  ⟨login, nick, track, "", rank, date, "", "", ""⟩

/-- The track keys of one rivalry key's nested win dict (`len(track_data)`
is `shared_tracks`); `none` (key absent from `rivalry_data`) gives `[]`. -/
def midTracks (o : Option TrackWins) : List String :=
  (o.getD []).map (·.1)

/-- Whether the pair loop of `detect_rivalries` records a win for the pair
`(p, q)` from the `player_best` dict of one track: both lookups succeed and
the best ranks differ. -/
def pairDecisive (best : List (String × PRec)) (p q : String) : Bool :=
  match lookupD p best, lookupD q best with
  | some r1, some r2 => r1.rank ≠ r2.rank
  | _, _ => false

/-! ### Generic fold lemmas -/

theorem nodup_keys_foldl {κ β γ : Type _} (step : List (κ × β) → γ → List (κ × β))
    (hstep : ∀ A r, (A.map (·.1)).Nodup → ((step A r).map (·.1)).Nodup) :
    ∀ (l : List γ) (A : List (κ × β)), (A.map (·.1)).Nodup →
      ((l.foldl step A).map (·.1)).Nodup := by
  intro l
  induction l with
  | nil => exact fun A h => h
  | cons r l ih => exact fun A h => ih _ (hstep A r h)

/-! ### Dedup-fold lemmas -/

theorem lookupD_foldl_stepBest {α κ : Type _} [DecidableEq κ] (key : α → κ)
    (val : α → Int) (k : κ) :
    ∀ (l : List α) (A : List (κ × α)),
      lookupD k (l.foldl (fun acc r => updD (key r) (fun old => stepBest val old r) acc) A) =
        (l.filter (fun r => decide (key r = k))).foldl
          (fun o r => some (stepBest val o r)) (lookupD k A) := by
  intro l
  induction l with
  | nil => intro A; rfl
  | cons r l ih =>
    intro A
    rw [List.foldl_cons, ih]
    by_cases h : key r = k
    · subst h
      simp [List.filter_cons, lookupD_updD_self]
    · have : k ≠ key r := fun hh => h hh.symm
      simp [List.filter_cons, h, lookupD_updD_ne this]

theorem foldl_some_stepBest {α : Type _} (val : α → Int) :
    ∀ (g : List α) (b : α),
      g.foldl (fun o r => some (stepBest val o r)) (some b) =
        some (runningBest val b g) := by
  intro g
  induction g with
  | nil => intro b; rfl
  | cons r g ih =>
    intro b
    rw [List.foldl_cons, runningBest, List.foldl_cons]
    exact ih _

theorem lookupD_dedupFold {α κ : Type _} [DecidableEq κ] (key : α → κ)
    (val : α → Int) (k : κ) (l : List α) :
    lookupD k (dedupFold key val l) =
      groupBest? val (l.filter (fun r => decide (key r = k))) := by
  rw [dedupFold, lookupD_foldl_stepBest]
  cases hg : l.filter (fun r => decide (key r = k)) with
  | nil => rfl
  | cons x g =>
    have hx : stepBest val (lookupD k ([] : List (κ × α))) x = x := rfl
    rw [List.foldl_cons, hx, foldl_some_stepBest]
    rfl

theorem runningBest_spec {α : Type _} (val : α → Int) :
    ∀ (g : List α) (b : α), ∃ pre suf,
      b :: g = pre ++ runningBest val b g :: suf ∧
      (∀ x ∈ pre, val (runningBest val b g) < val x) ∧
      (∀ x ∈ b :: g, val (runningBest val b g) ≤ val x) := by
  intro g
  induction g with
  | nil =>
    intro b
    exact ⟨[], [], by simp [runningBest], by simp, by simp [runningBest]⟩
  | cons r g ih =>
    intro b
    have hstep : runningBest val b (r :: g) =
        runningBest val (if val r < val b then r else b) g := rfl
    by_cases h : val r < val b
    · obtain ⟨pre, suf, heq, hpre, hall⟩ := ih r
      rw [if_pos h] at hstep
      refine ⟨b :: pre, suf, ?_, ?_, ?_⟩
      · rw [hstep, List.cons_append, ← heq]
      · intro x hx
        rcases List.mem_cons.mp hx with rfl | hx
        · exact lt_of_le_of_lt (hstep ▸ hall r (List.mem_cons_self r g)) h
        · exact hstep ▸ hpre x hx
      · intro x hx
        rcases List.mem_cons.mp hx with rfl | hx
        · exact le_of_lt (lt_of_le_of_lt (hstep ▸ hall r (List.mem_cons_self r g)) h)
        · exact hstep ▸ hall x hx
    · obtain ⟨pre, suf, heq, hpre, hall⟩ := ih b
      rw [if_neg h] at hstep
      have hble : val b ≤ val r := le_of_not_lt h
      cases pre with
      | nil =>
        simp only [List.nil_append] at heq
        have hb : b = runningBest val b g := (List.cons.injEq .. ▸ heq).1
        have hsuf : g = suf := (List.cons.injEq .. ▸ heq).2
        refine ⟨[], r :: g, by rw [hstep, ← hb]; rfl, by simp, ?_⟩
        intro x hx
        rcases List.mem_cons.mp hx with rfl | hx
        · exact hstep ▸ hall x (List.mem_cons_self x g)
        · rcases List.mem_cons.mp hx with rfl | hx
          · exact hstep ▸ (hb ▸ hble)
          · exact hstep ▸ hall x (List.mem_cons_of_mem _ hx)
      | cons p pre' =>
        simp only [List.cons_append] at heq
        have hbp : b = p := (List.cons.injEq .. ▸ heq).1
        have hg : g = pre' ++ runningBest val b g :: suf := (List.cons.injEq .. ▸ heq).2
        refine ⟨b :: r :: pre', suf, ?_, ?_, ?_⟩
        · rw [hstep, List.cons_append, List.cons_append, ← hg]
        · intro x hx
          have hresb : val (runningBest val b g) < val b :=
            hbp ▸ hpre p (List.mem_cons_self p pre')
          rcases List.mem_cons.mp hx with rfl | hx
          · exact hstep ▸ hresb
          · rcases List.mem_cons.mp hx with rfl | hx
            · exact hstep ▸ lt_of_lt_of_le hresb hble
            · exact hstep ▸ hpre x (List.mem_cons_of_mem _ hx)
        · intro x hx
          rcases List.mem_cons.mp hx with rfl | hx
          · exact hstep ▸ hall x (List.mem_cons_self x g)
          · rcases List.mem_cons.mp hx with rfl | hx
            · exact hstep ▸ le_trans (hall b (List.mem_cons_self b g)) hble
            · exact hstep ▸ hall x (List.mem_cons_of_mem _ hx)

theorem runningBest_mem {α : Type _} (val : α → Int) (b : α) (g : List α) :
    runningBest val b g ∈ b :: g := by
  obtain ⟨pre, suf, heq, -, -⟩ := runningBest_spec val g b
  rw [heq]
  exact List.mem_append_right pre (List.mem_cons_self _ suf)

theorem foldl_stepBest_prop {α κ : Type _} [DecidableEq κ] (key : α → κ)
    (val : α → Int) (Q : κ → α → Prop) :
    ∀ (l : List α) (A : List (κ × α)), (∀ e ∈ A, Q e.1 e.2) →
      (∀ r ∈ l, Q (key r) r) →
      ∀ e ∈ l.foldl (fun acc r => updD (key r) (fun old => stepBest val old r) acc) A,
        Q e.1 e.2 := by
  intro l
  induction l with
  | nil => exact fun A hA _ e he => hA e he
  | cons r l ih =>
    intro A hA hl
    rw [List.foldl_cons]
    refine ih _ ?_ (fun x hx => hl x (List.mem_cons_of_mem _ hx))
    intro e he
    rcases mem_updD he with he | he
    · exact hA e he
    · subst he
      cases hold : lookupD (key r) A with
      | none => simpa [stepBest, hold] using hl r (List.mem_cons_self r l)
      | some b =>
        simp only [stepBest, hold]
        by_cases hv : val r < val b
        · simpa [hv] using hl r (List.mem_cons_self r l)
        · simpa [hv] using hA (key r, b) (lookupD_mem hold)

theorem nodup_keys_dedupFold {α κ : Type _} [DecidableEq κ] (key : α → κ)
    (val : α → Int) (l : List α) :
    ((dedupFold key val l).map (·.1)).Nodup :=
  nodup_keys_foldl _ (fun _ _ h => nodup_keys_updD h) l [] (by simp)

theorem mem_dedupFold {α κ : Type _} [DecidableEq κ] {key : α → κ} {val : α → Int}
    {l : List α} {e : κ × α} (h : e ∈ dedupFold key val l) :
    e.2 ∈ l ∧ key e.2 = e.1 :=
  foldl_stepBest_prop key val (fun k r => r ∈ l ∧ key r = k) l [] (by simp)
    (fun r hr => ⟨hr, rfl⟩) e h

/-! ### Deduplication lemmas -/

theorem dedupBy_mem {coerce : String → Int} {R : List Rec} {r : Rec}
    (h : r ∈ dedupBy coerce R) : r ∈ R ∧ validRec r = true := by
  obtain ⟨e, he, rfl⟩ := List.mem_map.mp h
  have := (mem_dedupFold he).1
  exact List.mem_filter.mp this

theorem dedupBy_keys_nodup (coerce : String → Int) (R : List Rec) :
    ((dedupBy coerce R).map recKey).Nodup := by
  have hmap : (dedupBy coerce R).map recKey =
      (dedupFold recKey (fun r => coerce r.rank) (R.filter validRec)).map (·.1) := by
    rw [dedupBy, List.map_map]
    refine List.map_congr_left ?_
    intro e he
    exact (mem_dedupFold he).2
  rw [hmap]
  exact nodup_keys_dedupFold _ _ _

theorem filter_key_of_valid {R : List Rec} {r : Rec} (hv : validRec r = true) :
    R.filter (fun x => decide (recKey x = recKey r)) =
      (R.filter validRec).filter (fun x => decide (recKey x = recKey r)) := by
  rw [List.filter_filter]
  refine (List.filter_congr ?_).symm
  intro x _
  by_cases hx : recKey x = recKey r
  · have hvx : validRec x = true := by
      have h1 : x.login = r.login := congrArg Prod.fst hx
      have h2 : x.track = r.track := congrArg Prod.snd hx
      simp only [validRec, h1, h2]
      simpa [validRec] using hv
    simp [hx, hvx]
  · simp [hx]

theorem dedupBy_lookup (coerce : String → Int) (R : List Rec) (r : Rec)
    (h : r ∈ dedupBy coerce R) :
    lookupD (recKey r) (dedupFold recKey (fun x => coerce x.rank) (R.filter validRec)) =
      some r := by
  obtain ⟨e, he, rfl⟩ := List.mem_map.mp h
  have hk := (mem_dedupFold he).2
  have : e = (recKey e.2, e.2) := by
    obtain ⟨k, v⟩ := e
    simpa using hk.symm
  rw [this] at he
  exact mem_lookupD (nodup_keys_dedupFold _ _ _) he

/-- Core deduplication correctness, generic in the rank coercion: the output
keys are pairwise distinct; every valid input record's pair is represented;
and each kept record is an input record that splits its key group into a
strictly-worse prefix and a no-better suffix — i.e. it attains the minimal
coerced rank and is the first record of its group to do so. -/
theorem dedupBy_correct (coerce : String → Int) (R : List Rec) :
    ((dedupBy coerce R).map recKey).Nodup ∧
    (∀ r ∈ R, validRec r = true →
      ∃ kept ∈ dedupBy coerce R, recKey kept = recKey r) ∧
    (∀ r ∈ dedupBy coerce R, ∃ pre suf,
      R.filter (fun x => decide (recKey x = recKey r)) = pre ++ r :: suf ∧
      (∀ x ∈ pre, coerce r.rank < coerce x.rank) ∧
      (∀ x ∈ suf, coerce r.rank ≤ coerce x.rank)) := by
  refine ⟨dedupBy_keys_nodup coerce R, ?_, ?_⟩
  · intro r hr hv
    have hmem : r ∈ (R.filter validRec).filter
        (fun x => decide (recKey x = recKey r)) := by
      rw [List.mem_filter, List.mem_filter]
      exact ⟨⟨hr, hv⟩, by simp⟩
    rcases hg : (R.filter validRec).filter (fun x => decide (recKey x = recKey r)) with
      _ | ⟨x, g⟩
    · rw [hg] at hmem; simp at hmem
    · have hlook := lookupD_dedupFold recKey (fun x => coerce x.rank) (recKey r)
        (R.filter validRec)
      rw [hg] at hlook
      have hkept := lookupD_mem hlook
      refine ⟨runningBest (fun x => coerce x.rank) x g, List.mem_map.mpr ⟨_, hkept, rfl⟩, ?_⟩
      have hrbmem : runningBest (fun x => coerce x.rank) x g ∈ x :: g :=
        runningBest_mem _ _ _
      rw [← hg] at hrbmem
      exact of_decide_eq_true (List.mem_filter.mp hrbmem).2
  · intro r hr
    obtain ⟨hrR, hrv⟩ := dedupBy_mem hr
    have hlook := dedupBy_lookup coerce R r hr
    rw [lookupD_dedupFold] at hlook
    rcases hg : (R.filter validRec).filter (fun x => decide (recKey x = recKey r)) with
      _ | ⟨x, g⟩
    · rw [hg] at hlook; simp [groupBest?] at hlook
    · rw [hg] at hlook
      simp only [groupBest?, Option.some.injEq] at hlook
      obtain ⟨pre, suf, heq, hpre, hall⟩ :=
        runningBest_spec (fun x => coerce x.rank) g x
      rw [hlook] at heq hpre hall
      refine ⟨pre, suf, ?_, hpre, ?_⟩
      · rw [filter_key_of_valid hrv, hg, ← heq]
      · intro y hy
        refine hall y ?_
        rw [heq]
        exact List.mem_append_right pre (List.mem_cons_of_mem _ hy)

/-- C1. For every record sequence, each deduplication function keeps at
most one record per (player, track) pair; every valid input pair is kept;
and the kept record is an input record whose coerced rank (numeric → its
value, non-numeric or missing → 999, each copy using its own parse) is ≤
the coerced rank of every input record of its pair, the first-encountered
such record in input order, stored with its original rank field unmodified:
the group's records split into a strictly-worse prefix before the kept
record and a no-better suffix after it.  Stated for
`deduplicate_player_records` and for `deduplicate_records`. -/
theorem C1_dedup_correct (R : List Rec) :
    (((deduplicate_player_records R).map recKey).Nodup ∧
    (∀ r ∈ R, validRec r = true →
      ∃ kept ∈ deduplicate_player_records R, recKey kept = recKey r) ∧
    (∀ r ∈ deduplicate_player_records R, ∃ pre suf,
      R.filter (fun x => decide (recKey x = recKey r)) = pre ++ r :: suf ∧
      (∀ x ∈ pre, glCoerce r.rank < glCoerce x.rank) ∧
      (∀ x ∈ suf, glCoerce r.rank ≤ glCoerce x.rank))) ∧
    (((deduplicate_records R).map recKey).Nodup ∧
    (∀ r ∈ R, validRec r = true →
      ∃ kept ∈ deduplicate_records R, recKey kept = recKey r) ∧
    (∀ r ∈ deduplicate_records R, ∃ pre suf,
      R.filter (fun x => decide (recKey x = recKey r)) = pre ++ r :: suf ∧
      (∀ x ∈ pre, wtsCoerce r.rank < wtsCoerce x.rank) ∧
      (∀ x ∈ suf, wtsCoerce r.rank ≤ wtsCoerce x.rank))) :=
  ⟨dedupBy_correct glCoerce R, dedupBy_correct wtsCoerce R⟩

/-- Witness for C1 at a concrete input: two attempts by player `a` on track
`t`, ranks `"3"` then `"1"`; the theorem instantiated there yields a kept
record for the pair, and the kept record evaluates to the rank-1 attempt. -/
theorem C1_dedup_correct_witness :
    (∃ kept ∈ deduplicate_player_records
        [mkRec "a" "t" "3" "" "", mkRec "a" "t" "1" "" ""],
      recKey kept = recKey (mkRec "a" "t" "3" "" "")) ∧
    deduplicate_player_records [mkRec "a" "t" "3" "" "", mkRec "a" "t" "1" "" ""] =
      [mkRec "a" "t" "1" "" ""] :=
  ⟨(C1_dedup_correct [mkRec "a" "t" "3" "" "", mkRec "a" "t" "1" "" ""]).1.2.1
      (mkRec "a" "t" "3" "" "") (by decide) (by decide),
    by decide⟩

theorem foldl_stepBest_of_nodup {α κ : Type _} [DecidableEq κ] (key : α → κ)
    (val : α → Int) :
    ∀ (l : List α) (A : List (κ × α)), ((A.map (·.1)) ++ l.map key).Nodup →
      l.foldl (fun acc r => updD (key r) (fun old => stepBest val old r) acc) A =
        A ++ l.map (fun r => (key r, r)) := by
  intro l
  induction l with
  | nil => intro A _; simp
  | cons r l ih =>
    intro A h
    have hx : key r ∉ A.map (·.1) := by
      rcases List.nodup_append.mp h with ⟨-, -, hdisj⟩
      intro hmem
      exact hdisj hmem (by simp)
    have hnone : lookupD (key r) A = none := lookupD_eq_none_iff.mpr hx
    rw [List.foldl_cons, updD_of_not_mem _ hx]
    have hstep : stepBest val (none : Option α) r = r := rfl
    rw [hstep]
    have h' : (((A ++ [(key r, r)]).map (·.1)) ++ l.map key).Nodup := by
      simpa [List.append_assoc] using h
    rw [ih _ h', List.map_cons, List.append_assoc]
    rfl

theorem dedupBy_idem (coerce : String → Int) (R : List Rec) :
    dedupBy coerce (dedupBy coerce R) = dedupBy coerce R := by
  have hvalid : (dedupBy coerce R).filter validRec = dedupBy coerce R :=
    List.filter_eq_self.mpr (fun r hr => (dedupBy_mem hr).2)
  have hnodup : ((([] : List ((String × String) × Rec)).map (·.1)) ++
      (dedupBy coerce R).map recKey).Nodup := by
    simpa using dedupBy_keys_nodup coerce R
  conv_lhs => rw [dedupBy, hvalid, dedupFold, foldl_stepBest_of_nodup recKey _ _ _ hnodup]
  simp only [List.map_map, List.nil_append]
  exact List.map_id'' (fun r => rfl) (dedupBy coerce R)

/-- C10. Deduplication is idempotent, including the order of the resulting
records: running `deduplicate_player_records` on its own output returns the
output unchanged. -/
theorem C10_dedup_idempotent (R : List Rec) :
    deduplicate_player_records (deduplicate_player_records R) =
      deduplicate_player_records R :=
  dedupBy_idem glCoerce R

/-- Witness for C10 at a concrete input with duplicate, invalid and
non-numeric-rank records. -/
theorem C10_dedup_idempotent_witness :
    deduplicate_player_records (deduplicate_player_records
      [mkRec "a" "t" "3" "" "", mkRec "a" "t" "1" "" "", mkRec "" "t" "1" "" "",
        mkRec "b" "t" "dnf" "" ""]) =
      deduplicate_player_records
        [mkRec "a" "t" "3" "" "", mkRec "a" "t" "1" "" "", mkRec "" "t" "1" "" "",
          mkRec "b" "t" "dnf" "" ""] ∧
    deduplicate_player_records
        [mkRec "a" "t" "3" "" "", mkRec "a" "t" "1" "" "", mkRec "" "t" "1" "" "",
          mkRec "b" "t" "dnf" "" ""] =
      [mkRec "a" "t" "1" "" "", mkRec "b" "t" "dnf" "" ""] :=
  ⟨C10_dedup_idempotent
      [mkRec "a" "t" "3" "" "", mkRec "a" "t" "1" "" "", mkRec "" "t" "1" "" "",
        mkRec "b" "t" "dnf" "" ""],
    by decide⟩

theorem updD_congr {κ β : Type _} [DecidableEq κ] {k : κ} {f₁ f₂ : Option β → β} :
    ∀ {l : List (κ × β)}, f₁ none = f₂ none →
      (∀ v, (k, v) ∈ l → f₁ (some v) = f₂ (some v)) → updD k f₁ l = updD k f₂ l := by
  intro l
  induction l with
  | nil => intro h0 _; simp [updD, h0]
  | cons e t ih =>
    intro h0 hv
    obtain ⟨k₀, v₀⟩ := e
    by_cases hk : k = k₀
    · subst hk
      simp [updD, hv v₀ (by simp)]
    · simp [updD, hk]
      exact ih h0 (fun v hmem => hv v (List.mem_cons_of_mem _ hmem))

theorem dedupFold_fold_congr {α κ : Type _} [DecidableEq κ] (key : α → κ)
    {v₁ v₂ : α → Int} :
    ∀ (l : List α) (A : List (κ × α)), (∀ r ∈ l, v₁ r = v₂ r) →
      (∀ e ∈ A, v₁ e.2 = v₂ e.2) →
      l.foldl (fun acc r => updD (key r) (fun old => stepBest v₁ old r) acc) A =
        l.foldl (fun acc r => updD (key r) (fun old => stepBest v₂ old r) acc) A := by
  intro l
  induction l with
  | nil => intro A _ _; rfl
  | cons r l ih =>
    intro A hl hA
    have hr : v₁ r = v₂ r := hl r (by simp)
    have hupd : updD (key r) (fun old => stepBest v₁ old r) A =
        updD (key r) (fun old => stepBest v₂ old r) A := by
      refine updD_congr rfl ?_
      intro v hmem
      have hv : v₁ v = v₂ v := hA (key r, v) hmem
      simp [stepBest, hr, hv]
    rw [List.foldl_cons, List.foldl_cons, hupd]
    refine ih _ (fun x hx => hl x (List.mem_cons_of_mem _ hx)) ?_
    intro e he
    rcases mem_updD he with he | he
    · exact hA e he
    · subst he
      cases hold : lookupD (key r) A with
      | none => simpa [stepBest, hold] using hr
      | some b =>
        simp only [stepBest, hold]
        by_cases hb : v₂ r < v₂ b
        · simpa [hb] using hr
        · simpa [hb] using hA (key r, b) (lookupD_mem hold)

theorem dedup_equiv_of_coerce_agree {R : List Rec}
    (h : ∀ r ∈ R, glCoerce r.rank = wtsCoerce r.rank) :
    deduplicate_player_records R = deduplicate_records R := by
  rw [deduplicate_player_records, deduplicate_records, dedupBy, dedupBy, dedupFold,
    dedupFold, dedupFold_fold_congr recKey (R.filter validRec) []
      (fun r hr => h r (List.mem_of_mem_filter hr)) (by simp)]

/-- C7 counterexample: on two records for the same pair with ranks `"2"`
and `"+1"`, `deduplicate_player_records` coerces `"+1"` to 999 (it is not a
digit string) and keeps the rank-`"2"` record, while `deduplicate_records`
parses `int("+1") = 1` and keeps the rank-`"+1"` record: the two
implementations select different kept records for the same field values. -/
theorem C7_dedup_equiv_counterexample :
    deduplicate_player_records [mkRec "a" "t" "2" "" "", mkRec "a" "t" "+1" "" ""] =
      [mkRec "a" "t" "2" "" ""] ∧
    deduplicate_records [mkRec "a" "t" "2" "" "", mkRec "a" "t" "+1" "" ""] =
      [mkRec "a" "t" "+1" "" ""] ∧
    mkRec "a" "t" "2" "" "" ≠ mkRec "a" "t" "+1" "" "" := by
  refine ⟨by decide, by decide, by decide⟩

/-- C7 amended. The two deduplication implementations agree exactly on
inputs whose rank strings coerce identically under the two rank coercions
(digit-only, empty, and `int()`-unparsable ranks qualify); they diverge on
signed or whitespace-padded numerals such as `"+1"`. -/
theorem C7_dedup_equiv_amended (R : List Rec)
    (h : ∀ r ∈ R, glCoerce r.rank = wtsCoerce r.rank) :
    deduplicate_player_records R = deduplicate_records R :=
  dedup_equiv_of_coerce_agree h

/-- Witness for the amended C7 on an input with digit, empty and unparsable
ranks, where both implementations keep the same records. -/
theorem C7_dedup_equiv_amended_witness :
    deduplicate_player_records
        [mkRec "a" "t" "2" "" "", mkRec "a" "t" "1" "" "", mkRec "b" "t" "x" "" ""] =
      deduplicate_records
        [mkRec "a" "t" "2" "" "", mkRec "a" "t" "1" "" "", mkRec "b" "t" "x" "" ""] ∧
    deduplicate_records
        [mkRec "a" "t" "2" "" "", mkRec "a" "t" "1" "" "", mkRec "b" "t" "x" "" ""] =
      [mkRec "a" "t" "1" "" "", mkRec "b" "t" "x" "" ""] :=
  ⟨C7_dedup_equiv_amended
      [mkRec "a" "t" "2" "" "", mkRec "a" "t" "1" "" "", mkRec "b" "t" "x" "" ""]
      (by decide),
    by decide⟩

/-! ### Competition multiplier and scoring -/

theorem mult_eq_spec (x : Option Int) :
    get_competition_multiplier x = specMultiplier x := by
  cases x with
  | none => rfl
  | some n =>
    simp only [get_competition_multiplier, specMultiplier]
    split_ifs <;> first | rfl | omega

/-- C3. The competition multiplier is exactly the step function of the
specification's table: 0.5 for null/≤0 participants, 0.1 for 1, 0.2 for
2–4, 0.4 for 5–9, 0.6 for 10–14, 0.8 for 15–19, 1.0 for ≥20. -/
theorem C3_multiplier_step (x : Option Int) :
    get_competition_multiplier x = specMultiplier x :=
  mult_eq_spec x

/-- Witness for C3 at concrete inputs from every band of the table. -/
theorem C3_multiplier_step_witness :
    get_competition_multiplier (some 7) = specMultiplier (some 7) ∧
    get_competition_multiplier none = 1/2 ∧
    get_competition_multiplier (some 1) = 1/10 ∧
    get_competition_multiplier (some 4) = 1/5 ∧
    get_competition_multiplier (some 7) = 2/5 ∧
    get_competition_multiplier (some 12) = 3/5 ∧
    get_competition_multiplier (some 19) = 4/5 ∧
    get_competition_multiplier (some 20) = 1 :=
  ⟨C3_multiplier_step (some 7), rfl, rfl, rfl, rfl, rfl, rfl, rfl⟩

theorem foldl_add_sum {β : Type _} (f : β → ℚ) (l : List β) :
    ∀ a : ℚ, l.foldl (fun pts r => pts + f r) a = a + (l.map f).sum := by
  induction l with
  | nil => intro a; simp
  | cons r l ih =>
    intro a
    rw [List.foldl_cons, ih, List.map_cons, List.sum_cons, add_assoc]

theorem base_eq_claimBase {s : String} (h : pyIsDigit s = true → 1 ≤ digitsToNat s) :
    basePoints s = claimBasePoints s := by
  by_cases hd : pyIsDigit s = true
  · have h1 := h hd
    simp only [basePoints, claimBasePoints, hd, if_true]
    split_ifs <;> omega
  · simp [basePoints, claimBasePoints, hd]

/-- C2. `calculate_points` is the claimed sum: over all records, base points
(5 for numeric rank 1, 3 for ranks 2–3, 2 for ranks 4–5, 1 for numeric
rank ≥ 6 or a non-empty non-numeric rank, 0 for an empty rank) times the
step-function multiplier of the track's participant count, rounded to one
decimal place.  The hypothesis records the data-model invariant the claim's
case split presupposes: a numeric rank is ≥ 1 (the claim's cases do not
cover a rank string of numeric value 0). -/
theorem C2_score_formula (records : List Rec) (cache : List (String × Int))
    (h : ∀ r ∈ records, pyIsDigit r.rank = true → 1 ≤ digitsToNat r.rank) :
    calculate_points records cache =
      pyRound1 ((records.map (fun r =>
        (claimBasePoints r.rank : ℚ) *
          specMultiplier (lookupD r.track cache))).sum) := by
  rw [calculate_points, foldl_add_sum, zero_add]
  congr 1
  refine congrArg List.sum (List.map_congr_left ?_)
  intro r hr
  rw [base_eq_claimBase (h r hr), mult_eq_spec]

/-- Witness for C2: a rank-1 record on a 20-participant track, a rank-7
record on an unknown track and an unranked (`"dnf"`) record on a
1-participant track score 5·1.0 + 1·0.5 + 1·0.1 = 5.6. -/
theorem C2_score_formula_witness :
    calculate_points
        [mkRec "a" "t" "1" "" "", mkRec "a" "u" "7" "" "", mkRec "a" "v" "dnf" "" ""]
        [("t", 20), ("v", 1)] =
      pyRound1 (([mkRec "a" "t" "1" "" "", mkRec "a" "u" "7" "" "",
          mkRec "a" "v" "dnf" "" ""].map (fun r =>
        (claimBasePoints r.rank : ℚ) *
          specMultiplier (lookupD r.track [("t", 20), ("v", 1)]))).sum) ∧
    calculate_points
        [mkRec "a" "t" "1" "" "", mkRec "a" "u" "7" "" "", mkRec "a" "v" "dnf" "" ""]
        [("t", 20), ("v", 1)] = 28/5 := by
  refine ⟨C2_score_formula _ _ (by decide), ?_⟩
  have h1 : basePoints "1" = 5 := by decide
  have h2 : basePoints "7" = 1 := by decide
  have h3 : basePoints "dnf" = 1 := by decide
  have l1 : lookupD "t" [("t", (20 : Int)), ("v", 1)] = some 20 := by decide
  have l2 : lookupD "u" [("t", (20 : Int)), ("v", 1)] = none := by decide
  have l3 : lookupD "v" [("t", (20 : Int)), ("v", 1)] = some 1 := by decide
  simp only [calculate_points, List.foldl_cons, List.foldl_nil, mkRec, l1, l2, l3,
    h1, h2, h3]
  norm_num [get_competition_multiplier, pyRound1]

/-! ### Stable descending sort lemmas -/

theorem insDesc_perm {α κ : Type _} [LinearOrder κ] (key : α → κ) (x : α) :
    ∀ l : List α, (insDesc key x l).Perm (x :: l) := by
  intro l
  induction l with
  | nil => exact List.Perm.refl _
  | cons y ys ih =>
    by_cases h : key y < key x
    · rw [insDesc, if_pos h]
    · rw [insDesc, if_neg h]
      exact (ih.cons y).trans (List.Perm.swap x y ys)

theorem sortDesc_foldl_perm {α κ : Type _} [LinearOrder κ] (key : α → κ) :
    ∀ (l acc : List α),
      (l.foldl (fun acc x => insDesc key x acc) acc).Perm (acc ++ l) := by
  intro l
  induction l with
  | nil => intro acc; simp
  | cons x l ih =>
    intro acc
    rw [List.foldl_cons]
    refine (ih (insDesc key x acc)).trans ?_
    refine (((insDesc_perm key x acc).append_right l)).trans ?_
    exact List.perm_middle.symm

theorem sortDesc_perm {α κ : Type _} [LinearOrder κ] (key : α → κ) (l : List α) :
    (sortDesc key l).Perm l :=
  sortDesc_foldl_perm key l []

theorem pairwise_insDesc {α κ : Type _} [LinearOrder κ] (key : α → κ) (x : α)
    {l : List α} (h : List.Pairwise (fun a b => key b ≤ key a) l) :
    List.Pairwise (fun a b => key b ≤ key a) (insDesc key x l) := by
  induction l with
  | nil => simp [insDesc]
  | cons y ys ih =>
    obtain ⟨hy, hys⟩ := List.pairwise_cons.mp h
    by_cases hlt : key y < key x
    · rw [insDesc, if_pos hlt]
      refine List.pairwise_cons.mpr ⟨?_, h⟩
      intro z hz
      rcases List.mem_cons.mp hz with rfl | hz
      · exact le_of_lt hlt
      · exact le_trans (hy z hz) (le_of_lt hlt)
    · rw [insDesc, if_neg hlt]
      refine List.pairwise_cons.mpr ⟨?_, ih hys⟩
      intro z hz
      rcases List.mem_cons.mp ((insDesc_perm key x ys).mem_iff.mp hz) with rfl | hz
      · exact le_of_not_lt hlt
      · exact hy z hz

theorem pairwise_sortDesc {α κ : Type _} [LinearOrder κ] (key : α → κ) :
    ∀ (l acc : List α), List.Pairwise (fun a b => key b ≤ key a) acc →
      List.Pairwise (fun a b => key b ≤ key a)
        (l.foldl (fun acc x => insDesc key x acc) acc) := by
  intro l
  induction l with
  | nil => exact fun acc h => h
  | cons x l ih => exact fun acc h => ih _ (pairwise_insDesc key x h)

theorem filter_insDesc {α κ : Type _} [LinearOrder κ] (key : α → κ) (x : α) (k : κ)
    {l : List α} (hs : List.Pairwise (fun a b => key b ≤ key a) l) :
    (insDesc key x l).filter (fun y => decide (key y = k)) =
      l.filter (fun y => decide (key y = k)) ++ (if key x = k then [x] else []) := by
  induction l with
  | nil =>
    by_cases hk : key x = k <;> simp [insDesc, hk]
  | cons y ys ih =>
    obtain ⟨hy, hys⟩ := List.pairwise_cons.mp hs
    by_cases hlt : key y < key x
    · rw [insDesc, if_pos hlt]
      by_cases hk : key x = k
      · have hnone : (y :: ys).filter (fun z => decide (key z = k)) = [] := by
          refine List.filter_eq_nil_iff.mpr ?_
          intro z hz
          have hzy : key z ≤ key y := by
            rcases List.mem_cons.mp hz with rfl | hz
            · exact le_refl _
            · exact hy z hz
          have : key z < k := hk ▸ lt_of_le_of_lt hzy hlt
          simp [ne_of_lt this]
        rw [List.filter_cons_of_pos (by simp [hk]), hnone, hk]
        simp
      · rw [List.filter_cons_of_neg (by simp [hk])]
        simp [hk]
    · rw [insDesc, if_neg hlt]
      by_cases hyk : key y = k
      · rw [List.filter_cons_of_pos (by simp [hyk]),
          List.filter_cons_of_pos (by simp [hyk]), ih hys, List.cons_append]
      · rw [List.filter_cons_of_neg (by simp [hyk]),
          List.filter_cons_of_neg (by simp [hyk]), ih hys]

theorem filter_sortDesc {α κ : Type _} [LinearOrder κ] (key : α → κ) (k : κ) :
    ∀ (l acc : List α), List.Pairwise (fun a b => key b ≤ key a) acc →
      (l.foldl (fun acc x => insDesc key x acc) acc).filter
          (fun y => decide (key y = k)) =
        acc.filter (fun y => decide (key y = k)) ++
          l.filter (fun y => decide (key y = k)) := by
  intro l
  induction l with
  | nil => intro acc _; simp
  | cons x l ih =>
    intro acc hacc
    rw [List.foldl_cons, ih _ (pairwise_insDesc key x hacc), filter_insDesc key x k hacc]
    by_cases hk : key x = k
    · rw [List.filter_cons_of_pos (by simp [hk])]
      simp [hk]
    · rw [List.filter_cons_of_neg (by simp [hk])]
      simp [hk]

/-- C5. The Leaderboard Ranker's sort orders the player table by the key
(points, count-rank-1, count-rank-≤3, count-rank-≤5) in descending
lexicographic order, permutes the input (no row is created or lost), and is
stable: the rows holding any fixed key tuple appear in the output in exactly
their input order.  Determinism across re-runs is definitional:
`sortPlayerTable` is a pure function of the input list. -/
theorem C5_ranker_sort (l : List PlayerRow) :
    List.Pairwise (fun a b => rowKey b ≤ rowKey a) (sortPlayerTable l) ∧
    (sortPlayerTable l).Perm l ∧
    (∀ k, (sortPlayerTable l).filter (fun p => decide (rowKey p = k)) =
      l.filter (fun p => decide (rowKey p = k))) :=
  ⟨pairwise_sortDesc rowKey l [] (by simp),
    sortDesc_perm rowKey l,
    fun k => by
      have h := filter_sortDesc rowKey k l [] (by simp)
      simpa using h⟩

/-- Witness for C5 on a concrete table: `b` wins on points, `d` beats `a`
on the rank-1 tiebreak, and the fully tied rows `a` and `c` keep their
input order. -/
theorem C5_ranker_sort_witness :
    (sortPlayerTable
        [⟨"a", 1, 1, 1, 0, 0, 3, "a"⟩, ⟨"b", 0, 0, 0, 0, 0, 5, "b"⟩,
          ⟨"c", 1, 1, 1, 0, 0, 3, "c"⟩, ⟨"d", 0, 0, 2, 0, 0, 3, "d"⟩]).Perm
      [⟨"a", 1, 1, 1, 0, 0, 3, "a"⟩, ⟨"b", 0, 0, 0, 0, 0, 5, "b"⟩,
        ⟨"c", 1, 1, 1, 0, 0, 3, "c"⟩, ⟨"d", 0, 0, 2, 0, 0, 3, "d"⟩] ∧
    (sortPlayerTable
        [⟨"a", 1, 1, 1, 0, 0, 3, "a"⟩, ⟨"b", 0, 0, 0, 0, 0, 5, "b"⟩,
          ⟨"c", 1, 1, 1, 0, 0, 3, "c"⟩, ⟨"d", 0, 0, 2, 0, 0, 3, "d"⟩]).map
        (·.nickname) = ["b", "d", "a", "c"] :=
  ⟨(C5_ranker_sort
      [⟨"a", 1, 1, 1, 0, 0, 3, "a"⟩, ⟨"b", 0, 0, 0, 0, 0, 5, "b"⟩,
        ⟨"c", 1, 1, 1, 0, 0, 3, "c"⟩, ⟨"d", 0, 0, 2, 0, 0, 3, "d"⟩]).2.1,
    by decide⟩

/-! ### Hidden nickname cache (C8) -/

/-- C8 counterexample: after `get_all_latest_nicknames` has been called once
with records naming player `a` as `Nick1`, a second call on the same
instance with records naming `a` as `Nick2` still returns `Nick1`, while a
fresh instance returns `Nick2`: the method's output depends on the hidden
`_latest_nicks_cache`, not only on its argument. -/
theorem C8_cache_counterexample :
    (get_all_latest_nicknames
        ((get_all_latest_nicknames none [mkRec "a" "t" "1" "Nick1" "2024-01-01"]).2)
        [mkRec "a" "t" "1" "Nick2" "2024-01-01"]).1 = [("a", "Nick1")] ∧
    (get_all_latest_nicknames none [mkRec "a" "t" "1" "Nick2" "2024-01-01"]).1 =
      [("a", "Nick2")] ∧
    ([("a", "Nick1")] : List (String × String)) ≠ [("a", "Nick2")] := by
  refine ⟨by decide, by decide, by decide⟩

/-- C8 amended. `get_all_latest_nicknames` is memoized first-call-wins: a
fresh instance computes the nickname map of its argument, but any later call
on the same instance returns the first call's result unchanged — so whenever
the two record lists induce different nickname maps, the cached second call
differs from a fresh instance's result (and `detect_rivalries`, which calls
it, sees the stale map). -/
theorem C8_cache_amended (R1 R2 : List Rec) :
    (get_all_latest_nicknames none R2).1 = computeLatestNicknames R2 ∧
    (get_all_latest_nicknames ((get_all_latest_nicknames none R1).2) R2).1 =
      computeLatestNicknames R1 ∧
    (computeLatestNicknames R1 ≠ computeLatestNicknames R2 →
      (get_all_latest_nicknames ((get_all_latest_nicknames none R1).2) R2).1 ≠
        (get_all_latest_nicknames none R2).1) :=
  ⟨rfl, rfl, fun h => by simpa using h⟩

/-- Witness for the amended C8 at the concrete record lists of the
counterexample. -/
theorem C8_cache_amended_witness :
    (get_all_latest_nicknames none [mkRec "a" "t" "1" "Nick2" "2024-01-01"]).1 =
      computeLatestNicknames [mkRec "a" "t" "1" "Nick2" "2024-01-01"] ∧
    (get_all_latest_nicknames
        ((get_all_latest_nicknames none [mkRec "a" "t" "1" "Nick1" "2024-01-01"]).2)
        [mkRec "a" "t" "1" "Nick2" "2024-01-01"]).1 ≠
      (get_all_latest_nicknames none [mkRec "a" "t" "1" "Nick2" "2024-01-01"]).1 :=
  ⟨(C8_cache_amended [mkRec "a" "t" "1" "Nick1" "2024-01-01"]
      [mkRec "a" "t" "1" "Nick2" "2024-01-01"]).1,
    (C8_cache_amended [mkRec "a" "t" "1" "Nick1" "2024-01-01"]
      [mkRec "a" "t" "1" "Nick2" "2024-01-01"]).2.2 (by decide)⟩

/-! ### Weekend warrior (C9) -/

theorem pyMaxBy_spec {α : Type _} (key : α → Nat) (x : α) (xs : List α) :
    ∃ res pre suf, pyMaxBy key (x :: xs) = some res ∧
      x :: xs = pre ++ res :: suf ∧
      (∀ y ∈ pre, key y < key res) ∧
      (∀ y ∈ x :: xs, key y ≤ key res) := by
  have hfold : xs.foldl (fun b y => if key b < key y then y else b) x =
      runningBest (fun a => -(key a : Int)) x xs := by
    rw [runningBest]
    refine List.foldl_ext _ _ x ?_
    intro b y _
    have hiff : (-(key y : Int) < -(key b : Int)) ↔ key b < key y := by omega
    by_cases h : key b < key y
    · rw [if_pos h, if_pos (hiff.mpr h)]
    · rw [if_neg h, if_neg (fun hc => h (hiff.mp hc))]
  obtain ⟨pre, suf, heq, hpre, hall⟩ :=
    runningBest_spec (fun a => -(key a : Int)) xs x
  refine ⟨runningBest (fun a => -(key a : Int)) x xs, pre, suf, ?_, heq, ?_, ?_⟩
  · rw [pyMaxBy, hfold]
  · intro y hy
    have := hpre y hy
    omega
  · intro y hy
    have := hall y hy
    omega

/-- C9 amended.  The weekend-warrior achievement returns no result when no
record in the window falls on Saturday/Sunday, and otherwise selects the
player with the largest *raw* weekend count (the first encountered on ties):
the selected entry's count is ≥ every weekend player's count.  The
percentage (weekend count over the player's total record count) is computed
and reported but plays no part in the selection. -/
theorem C9_weekend_warrior_amended (records : List Rec) (startD endD : Date) :
    match analyze_weekend_warrior records startD endD with
    | none => weekend_totals records startD endD = []
    | some e => ∃ w ∈ weekend_totals records startD endD,
        e.player = (lookupD w.login (computeLatestNicknames records)).getD w.login ∧
        e.count = w.count ∧ e.percentage = w.percentage ∧
        ∀ w' ∈ weekend_totals records startD endD, w'.count ≤ w.count := by
  cases hwt : weekend_totals records startD endD with
  | nil =>
    have han : analyze_weekend_warrior records startD endD = none := by
      simp [analyze_weekend_warrior, hwt, pyMaxBy]
    rw [han]
  | cons x xs =>
    obtain ⟨res, pre, suf, hmax, heq, hpre, hall⟩ :=
      pyMaxBy_spec (fun w => w.count) x xs
    have han : analyze_weekend_warrior records startD endD =
        some ⟨(lookupD res.login (computeLatestNicknames records)).getD res.login,
          res.count, res.percentage⟩ := by
      rw [analyze_weekend_warrior, hwt, hmax]
    rw [han]
    refine ⟨res, ?_, rfl, rfl, rfl, ?_⟩
    · rw [heq]
      exact List.mem_append_right pre (List.mem_cons_self _ suf)
    · intro w' hw'
      exact hall w' hw'

/-- C9 counterexample: in the window Thu 2024-01-04 … Sun 2024-01-07,
player `a` has 10 records of which 2 fall on Saturday 2024-01-06 (20 % of
their own total), player `b` has a single record, on that Saturday (100 %).
The achievement selects `a` — the largest raw weekend count — although `b`
maximizes the percentage of own records on the weekend (1·10 > 2·1 after
cross-multiplying the shares 1/1 and 2/10). -/
theorem C9_weekend_warrior_counterexample :
    (analyze_weekend_warrior
        (List.replicate 8 (mkRec "a" "t" "1" "" "2024-01-05") ++
          [mkRec "a" "u" "1" "" "2024-01-06", mkRec "a" "v" "1" "" "2024-01-06",
            mkRec "b" "w" "1" "" "2024-01-06"])
        ⟨2024, 1, 4⟩ ⟨2024, 1, 7⟩).map (·.player) = some "a" ∧
    lookupD "a" (weekendCounts
        (List.replicate 8 (mkRec "a" "t" "1" "" "2024-01-05") ++
          [mkRec "a" "u" "1" "" "2024-01-06", mkRec "a" "v" "1" "" "2024-01-06",
            mkRec "b" "w" "1" "" "2024-01-06"])
        ⟨2024, 1, 4⟩ ⟨2024, 1, 7⟩) = some 2 ∧
    lookupD "b" (weekendCounts
        (List.replicate 8 (mkRec "a" "t" "1" "" "2024-01-05") ++
          [mkRec "a" "u" "1" "" "2024-01-06", mkRec "a" "v" "1" "" "2024-01-06",
            mkRec "b" "w" "1" "" "2024-01-06"])
        ⟨2024, 1, 4⟩ ⟨2024, 1, 7⟩) = some 1 ∧
    totalRecordsOf
        (List.replicate 8 (mkRec "a" "t" "1" "" "2024-01-05") ++
          [mkRec "a" "u" "1" "" "2024-01-06", mkRec "a" "v" "1" "" "2024-01-06",
            mkRec "b" "w" "1" "" "2024-01-06"]) "a" = 10 ∧
    totalRecordsOf
        (List.replicate 8 (mkRec "a" "t" "1" "" "2024-01-05") ++
          [mkRec "a" "u" "1" "" "2024-01-06", mkRec "a" "v" "1" "" "2024-01-06",
            mkRec "b" "w" "1" "" "2024-01-06"]) "b" = 1 ∧
    (1 : ℚ) / 1 > (2 : ℚ) / 10 ∧ "a" ≠ "b" := by
  refine ⟨by decide, by decide, by decide, by decide, by decide, by norm_num,
    by decide⟩

/-- Witness for the amended C9 at the counterexample input: the theorem
instantiated there, plus the concrete evaluation showing the selected raw
weekend count is 2. -/
theorem C9_weekend_warrior_amended_witness :
    (match analyze_weekend_warrior
        (List.replicate 8 (mkRec "a" "t" "1" "" "2024-01-05") ++
          [mkRec "a" "u" "1" "" "2024-01-06", mkRec "a" "v" "1" "" "2024-01-06",
            mkRec "b" "w" "1" "" "2024-01-06"])
        ⟨2024, 1, 4⟩ ⟨2024, 1, 7⟩ with
     | none => weekend_totals
        (List.replicate 8 (mkRec "a" "t" "1" "" "2024-01-05") ++
          [mkRec "a" "u" "1" "" "2024-01-06", mkRec "a" "v" "1" "" "2024-01-06",
            mkRec "b" "w" "1" "" "2024-01-06"])
        ⟨2024, 1, 4⟩ ⟨2024, 1, 7⟩ = []
     | some e => ∃ w ∈ weekend_totals
        (List.replicate 8 (mkRec "a" "t" "1" "" "2024-01-05") ++
          [mkRec "a" "u" "1" "" "2024-01-06", mkRec "a" "v" "1" "" "2024-01-06",
            mkRec "b" "w" "1" "" "2024-01-06"])
        ⟨2024, 1, 4⟩ ⟨2024, 1, 7⟩,
        e.player = (lookupD w.login (computeLatestNicknames
          (List.replicate 8 (mkRec "a" "t" "1" "" "2024-01-05") ++
            [mkRec "a" "u" "1" "" "2024-01-06", mkRec "a" "v" "1" "" "2024-01-06",
              mkRec "b" "w" "1" "" "2024-01-06"]))).getD w.login ∧
        e.count = w.count ∧ e.percentage = w.percentage ∧
        ∀ w' ∈ weekend_totals
          (List.replicate 8 (mkRec "a" "t" "1" "" "2024-01-05") ++
            [mkRec "a" "u" "1" "" "2024-01-06", mkRec "a" "v" "1" "" "2024-01-06",
              mkRec "b" "w" "1" "" "2024-01-06"])
          ⟨2024, 1, 4⟩ ⟨2024, 1, 7⟩, w'.count ≤ w.count) ∧
    (analyze_weekend_warrior
        (List.replicate 8 (mkRec "a" "t" "1" "" "2024-01-05") ++
          [mkRec "a" "u" "1" "" "2024-01-06", mkRec "a" "v" "1" "" "2024-01-06",
            mkRec "b" "w" "1" "" "2024-01-06"])
        ⟨2024, 1, 4⟩ ⟨2024, 1, 7⟩).map (·.count) = some 2 :=
  ⟨C9_weekend_warrior_amended _ _ _, by decide⟩

/-! ### Malformed-field handling (C6) -/

theorem lookupD_trackRecords_fold (t : String) :
    ∀ (l : List Rec) (A : List (String × List PRec)),
      (lookupD t (l.foldl
        (fun acc r =>
          match rivalryRank? r.rank with
          | none => acc
          | some ri =>
            updD r.track (fun o => o.getD [] ++ [⟨r.login, r.nick, ri, r.time⟩]) acc)
        A)).getD [] =
      (lookupD t A).getD [] ++ parsedOnTrack l t := by
  intro l
  induction l with
  | nil => intro A; simp [parsedOnTrack]
  | cons r l ih =>
    intro A
    rw [List.foldl_cons]
    cases hrk : rivalryRank? r.rank with
    | none =>
      simp only [hrk]
      rw [ih]
      simp [parsedOnTrack, List.filterMap_cons, hrk]
    | some ri =>
      simp only [hrk]
      by_cases ht : r.track = t
      · subst ht
        rw [ih, lookupD_updD_self]
        simp [parsedOnTrack, List.filterMap_cons, hrk, List.append_assoc]
      · have : t ≠ r.track := fun hh => ht hh.symm
        rw [ih, lookupD_updD_ne this]
        simp [parsedOnTrack, List.filterMap_cons, hrk, ht]

theorem lookupD_trackRecords (R : List Rec) (t : String) :
    (lookupD t (trackRecords R)).getD [] = parsedOnTrack R t := by
  have h := lookupD_trackRecords_fold t R []
  simpa [trackRecords, lookupD] using h

theorem trackRecords_fold_parseable :
    ∀ (l : List Rec) (A : List (String × List PRec)),
      l.foldl
        (fun acc r =>
          match rivalryRank? r.rank with
          | none => acc
          | some ri =>
            updD r.track (fun o => o.getD [] ++ [⟨r.login, r.nick, ri, r.time⟩]) acc)
        A =
      (l.filter (fun x => (rivalryRank? x.rank).isSome)).foldl
        (fun acc r =>
          match rivalryRank? r.rank with
          | none => acc
          | some ri =>
            updD r.track (fun o => o.getD [] ++ [⟨r.login, r.nick, ri, r.time⟩]) acc)
        A := by
  intro l
  induction l with
  | nil => intro A; rfl
  | cons r l ih =>
    intro A
    cases hrk : rivalryRank? r.rank with
    | none => simp [List.filter_cons, hrk, ih]
    | some ri => simp [List.filter_cons, hrk, ih]

theorem trackRecords_drops_unparsable {r : Rec}
    (h : rivalryRank? r.rank = none) (R : List Rec) :
    trackRecords (R.filter (fun x => decide (x ≠ r))) = trackRecords R := by
  have h1 := trackRecords_fold_parseable (R.filter (fun x => decide (x ≠ r)))
    ([] : List (String × List PRec))
  have h2 := trackRecords_fold_parseable R ([] : List (String × List PRec))
  rw [trackRecords, trackRecords, h1, h2, List.filter_filter]
  congr 1
  refine List.filter_congr ?_
  intro x _
  by_cases hx : x = r
  · subst hx
    simp [h]
  · simp [hx]

/-- C6 counterexample: the record `(b, t, rank "dnf")` — a non-empty rank
that `int()` cannot parse — is silently skipped by the rank parse of
`detect_rivalries` (`except: continue`), so the track grouping of the
rivalry analysis holds only the other player's entry instead of treating the
record as rank 999; the same record does participate in deduplication.  This
refutes the claim that in every core component such a record "still
participates in the analysis" and "is never dropped". -/
theorem C6_malformed_counterexample :
    trackRecords [mkRec "b" "t" "dnf" "" ""] = [] ∧
    lookupD "t" (trackRecords [mkRec "a" "t" "1" "" "", mkRec "b" "t" "dnf" "" ""]) =
      some [⟨"a", "", 1, ""⟩] ∧
    deduplicate_player_records [mkRec "b" "t" "dnf" "" ""] =
      [mkRec "b" "t" "dnf" "" ""] ∧
    (mkRec "b" "t" "dnf" "" "").rank ≠ "" ∧
    pyInt? (mkRec "b" "t" "dnf" "" "").rank = none := by
  refine ⟨by decide, by decide, by decide, by decide, by decide⟩

/-- C6 amended.  A record with a non-empty unparsable rank never raises
anywhere, and in deduplication and scoring it does participate with the 999
sentinel (kept per pair, worth 1 base point); an unparsable time string maps
to +infinity (`none`) in `format_time`; but in `detect_rivalries` such a
record is silently dropped before the analysis — the track grouping is
exactly as if the record were absent from the input — rather than
participating as rank 999. -/
theorem C6_malformed_amended (R : List Rec) (r : Rec) (s : String)
    (hmem : r ∈ R) (hval : validRec r = true)
    (hdig : pyIsDigit r.rank = false) (hne : r.rank ≠ "")
    (hint : pyInt? r.rank = none)
    (hscolon : s.toList.contains ':' = false) (hsfloat : pyFloat? s = none)
    (hsne : s ≠ "") :
    glCoerce r.rank = 999 ∧ wtsCoerce r.rank = 999 ∧
    (∃ kept ∈ deduplicate_player_records R, recKey kept = recKey r) ∧
    basePoints r.rank = 1 ∧
    format_time s = none ∧
    rivalryRank? r.rank = none ∧
    trackRecords (R.filter (fun x => decide (x ≠ r))) = trackRecords R := by
  have hrk : rivalryRank? r.rank = none := by simp [rivalryRank?, hne, hint]
  refine ⟨by simp [glCoerce, hdig], by simp [wtsCoerce, hne, hint], ?_, ?_, ?_, hrk,
    trackRecords_drops_unparsable hrk R⟩
  · exact (dedupBy_correct glCoerce R).2.1 r hmem hval
  · simp [basePoints, hdig, hne]
  · have hmem2 : ¬ (':' ∈ s.data) := by simpa [String.toList] using hscolon
    simp [format_time, hsne, hmem2, hsfloat]

/-- Witness for the amended C6 at the counterexample record and the
unparsable time string `"x9"`. -/
theorem C6_malformed_amended_witness :
    (∃ kept ∈ deduplicate_player_records
        [mkRec "a" "t" "1" "" "", mkRec "b" "t" "dnf" "" ""],
      recKey kept = recKey (mkRec "b" "t" "dnf" "" "")) ∧
    glCoerce "dnf" = 999 ∧ format_time "x9" = none :=
  ⟨((C6_malformed_amended [mkRec "a" "t" "1" "" "", mkRec "b" "t" "dnf" "" ""]
      (mkRec "b" "t" "dnf" "" "") "x9" (by decide) (by decide) (by decide)
      (by decide) (by decide) (by decide) (by decide) (by decide))).2.2.1,
    by decide,
    ((C6_malformed_amended [mkRec "a" "t" "1" "" "", mkRec "b" "t" "dnf" "" ""]
      (mkRec "b" "t" "dnf" "" "") "x9" (by decide) (by decide) (by decide)
      (by decide) (by decide) (by decide) (by decide) (by decide))).2.2.2.2.1⟩

/-! ### Rivalry detection lemmas (C4) -/

theorem int_min_eq_some_iff {xs : List Int} {a : Int} :
    xs.min? = some a ↔ a ∈ xs ∧ ∀ b ∈ xs, a ≤ b :=
  @List.min?_eq_some_iff Int a _ _ ⟨@fun _ _ h h' => le_antisymm h h'⟩
    (fun _ => le_refl _) (fun _ _ => min_choice _ _) (fun _ _ _ => le_min_iff) xs

theorem groupBest?_map_val {α : Type _} (val : α → Int) (g : List α) :
    (groupBest? val g).map val = (g.map val).min? := by
  cases g with
  | nil => rfl
  | cons x g' =>
    obtain ⟨pre, suf, heq, hpre, hall⟩ := runningBest_spec val g' x
    symm
    simp only [groupBest?, Option.map_some']
    refine int_min_eq_some_iff.mpr ⟨?_, ?_⟩
    · exact List.mem_map.mpr ⟨_, runningBest_mem val x g', rfl⟩
    · intro v hv
      obtain ⟨y, hy, rfl⟩ := List.mem_map.mp hv
      exact hall y hy

theorem lookupD_playerBest_rank (l : List PRec) (p : String) :
    (lookupD p (playerBest l)).map (·.rank) = bestRank? l p := by
  rw [playerBest, lookupD_dedupFold, bestRank?]
  have hfc : l.filter (fun r => r.login == p) =
      l.filter (fun r => decide (r.login = p)) :=
    List.filter_congr (fun x _ => by by_cases h : x.login = p <;> simp [h])
  rw [hfc, groupBest?_map_val]

theorem bestRank?_eq_none_iff {l : List PRec} {p : String} :
    bestRank? l p = none ↔ l.filter (fun r => decide (r.login = p)) = [] := by
  rw [bestRank?]
  have hfc : l.filter (fun r => r.login == p) =
      l.filter (fun r => decide (r.login = p)) :=
    List.filter_congr (fun x _ => by by_cases h : x.login = p <;> simp [h])
  rw [hfc, List.min?_eq_none_iff, List.map_eq_nil_iff]

theorem mem_playerBest_keys {l : List PRec} {p : String} :
    p ∈ (playerBest l).map (·.1) ↔
      l.filter (fun r => decide (r.login = p)) ≠ [] := by
  have h1 : p ∈ (playerBest l).map (·.1) ↔ lookupD p (playerBest l) ≠ none := by
    rw [Ne, lookupD_eq_none_iff]
    tauto
  rw [h1, playerBest, lookupD_dedupFold]
  cases hg : l.filter (fun r => decide (r.login = p)) with
  | nil => simp [groupBest?]
  | cons x g => simp [groupBest?]

theorem mem_playersOf {l : List PRec} {p : String} :
    p ∈ playersOf l ↔
      (l.filter (fun r => decide (r.login = p)) ≠ [] ∧ p ≠ excludedLogin) := by
  rw [playersOf, List.mem_filter, mem_playerBest_keys]
  simp

theorem playersOf_nodup (l : List PRec) : (playersOf l).Nodup := by
  rw [playersOf, playerBest]
  exact (nodup_keys_dedupFold (·.login) (·.rank) l).filter _

theorem charListLt_irrefl : ∀ (l : List Char), charListLt l l = false
  | [] => rfl
  | x :: xs => by
    rw [charListLt, if_neg (lt_irrefl x), if_neg (lt_irrefl x)]
    exact charListLt_irrefl xs

theorem charListLt_asymm : ∀ {l1 l2 : List Char},
    charListLt l1 l2 = true → charListLt l2 l1 = false := by
  intro l1
  induction l1 with
  | nil =>
    intro l2 h
    cases l2 with
    | nil => exact rfl
    | cons y ys => rfl
  | cons x xs ih =>
    intro l2 h
    cases l2 with
    | nil => exact absurd h (by rw [charListLt]; simp)
    | cons y ys =>
      rw [charListLt] at h ⊢
      by_cases hxy : x < y
      · rw [if_neg (lt_asymm hxy), if_pos hxy]
      · rw [if_neg hxy] at h
        by_cases hyx : y < x
        · rw [if_pos hyx] at h
          exact absurd h (by simp)
        · rw [if_neg hyx] at h
          rw [if_neg hyx, if_neg hxy]
          exact ih h

theorem strLt_asymm {a b : String} (h : strLt a b = true) : strLt b a = false :=
  charListLt_asymm h

theorem strLt_ne {a b : String} (h : strLt a b = true) : a ≠ b := by
  rintro rfl
  rw [strLt, charListLt_irrefl] at h
  exact Bool.false_ne_true h

theorem sortPair_eq_iff {a b : String} (hab : strLt a b = true) (p q : String) :
    sortPair p q = (a, b) ↔ (p = a ∧ q = b) ∨ (p = b ∧ q = a) := by
  rw [sortPair]
  by_cases h : strLt q p = true
  · rw [if_pos h]
    simp only [Prod.mk.injEq]
    constructor
    · exact fun he => Or.inr ⟨he.2, he.1⟩
    · rintro (⟨rfl, rfl⟩ | ⟨rfl, rfl⟩)
      · exact absurd h (by rw [strLt_asymm hab]; simp)
      · exact ⟨rfl, rfl⟩
  · rw [if_neg h]
    simp only [Prod.mk.injEq]
    constructor
    · exact fun he => Or.inl he
    · rintro (⟨rfl, rfl⟩ | ⟨rfl, rfl⟩)
      · exact ⟨rfl, rfl⟩
      · exact absurd hab h

theorem mem_allPairs {α : Type _} {l : List α} {pq : α × α} (h : pq ∈ allPairs l) :
    pq.1 ∈ l ∧ pq.2 ∈ l := by
  induction l with
  | nil => simp [allPairs] at h
  | cons x xs ih =>
    rw [allPairs] at h
    rcases List.mem_append.mp h with h | h
    · obtain ⟨y, hy, rfl⟩ := List.mem_map.mp h
      exact ⟨by simp, by simp [hy]⟩
    · obtain ⟨h1, h2⟩ := ih h
      exact ⟨List.mem_cons_of_mem _ h1, List.mem_cons_of_mem _ h2⟩

theorem filter_eq_singleton_of_nodup {α : Type _} [DecidableEq α] {l : List α}
    (h : l.Nodup) (b : α) :
    l.filter (fun y => decide (y = b)) = if b ∈ l then [b] else [] := by
  induction l with
  | nil => simp
  | cons x xs ih =>
    obtain ⟨hx, hnd⟩ := List.nodup_cons.mp h
    by_cases hxb : x = b
    · subst hxb
      rw [List.filter_cons_of_pos (by simp)]
      have : x ∈ x :: xs := by simp
      rw [if_pos this, ih hnd, if_neg hx]
    · rw [List.filter_cons_of_neg (by simp [hxb]), ih hnd]
      have : (b ∈ x :: xs) ↔ (b ∈ xs) := by
        simp [List.mem_cons, fun hh : b = x => hxb hh.symm]
        tauto
      by_cases hbx : b ∈ xs
      · rw [if_pos hbx, if_pos (this.mpr hbx)]
      · rw [if_neg hbx, if_neg (fun hh => hbx (this.mp hh))]

theorem allPairs_filter_of_not_mem {l : List String} {a b : String}
    (hab : strLt a b = true) (h : a ∉ l ∨ b ∉ l) :
    (allPairs l).filter (fun pq => decide (sortPair pq.1 pq.2 = (a, b))) = [] := by
  refine List.filter_eq_nil_iff.mpr ?_
  intro pq hpq
  obtain ⟨h1, h2⟩ := mem_allPairs hpq
  simp only [decide_eq_true_eq]
  intro he
  rcases (sortPair_eq_iff hab pq.1 pq.2).mp he with ⟨ha, hb⟩ | ⟨ha, hb⟩ <;>
    rcases h with h | h
  · exact h (ha ▸ h1)
  · exact h (hb ▸ h2)
  · exact h (hb ▸ h2)
  · exact h (ha ▸ h1)

theorem sortPair_fst_eq_iff {a b x : String} (hab : strLt a b = true) (hxa : x = a)
    (y : String) :
    sortPair x y = (a, b) ↔ y = b := by
  rw [sortPair_eq_iff hab]
  constructor
  · rintro (⟨-, h⟩ | ⟨h1, -⟩)
    · exact h
    · exact absurd (hxa.symm.trans h1) (strLt_ne hab)
  · intro h
    exact Or.inl ⟨hxa, h⟩

theorem sortPair_snd_eq_iff {a b x : String} (hab : strLt a b = true) (hxb : x = b)
    (y : String) :
    sortPair x y = (a, b) ↔ y = a := by
  rw [sortPair_eq_iff hab]
  constructor
  · rintro (⟨h1, -⟩ | ⟨-, h2⟩)
    · exact absurd (h1.symm.trans hxb) (strLt_ne hab)
    · exact h2
  · intro h
    exact Or.inr ⟨hxb, h⟩

theorem allPairs_filter_sortPair {l : List String} (hnd : l.Nodup) {a b : String}
    (hab : strLt a b = true) (hal : a ∈ l) (hbl : b ∈ l) :
    ∃ pq, (allPairs l).filter (fun pq => decide (sortPair pq.1 pq.2 = (a, b))) = [pq] ∧
      (pq = (a, b) ∨ pq = (b, a)) := by
  have hne : a ≠ b := strLt_ne hab
  induction l with
  | nil => simp at hal
  | cons x xs ih =>
    obtain ⟨hx, hnd'⟩ := List.nodup_cons.mp hnd
    rw [allPairs, List.filter_append, List.filter_map]
    by_cases hxa : x = a
    · have hbxs : b ∈ xs := by
        rcases List.mem_cons.mp hbl with rfl | hh
        · exact absurd hxa.symm hne
        · exact hh
      have hmapf : xs.filter ((fun pq => decide (sortPair pq.1 pq.2 = (a, b))) ∘
          (fun y => (x, y))) = [b] := by
        have hcong : ∀ y ∈ xs, ((fun pq => decide (sortPair pq.1 pq.2 = (a, b))) ∘
            (fun y => (x, y))) y = decide (y = b) := by
          intro y _
          simp only [Function.comp]
          exact decide_eq_decide.mpr (sortPair_fst_eq_iff hab hxa y)
        rw [List.filter_congr hcong, filter_eq_singleton_of_nodup hnd', if_pos hbxs]
      have hax : a ∉ xs := hxa ▸ hx
      rw [hmapf, allPairs_filter_of_not_mem hab (Or.inl hax)]
      refine ⟨(x, b), by simp, Or.inl ?_⟩
      rw [hxa]
    · by_cases hxb : x = b
      · have haxs : a ∈ xs := by
          rcases List.mem_cons.mp hal with rfl | hh
          · exact absurd rfl hxa
          · exact hh
        have hmapf : xs.filter ((fun pq => decide (sortPair pq.1 pq.2 = (a, b))) ∘
            (fun y => (x, y))) = [a] := by
          have hcong : ∀ y ∈ xs, ((fun pq => decide (sortPair pq.1 pq.2 = (a, b))) ∘
              (fun y => (x, y))) y = decide (y = a) := by
            intro y _
            simp only [Function.comp]
            exact decide_eq_decide.mpr (sortPair_snd_eq_iff hab hxb y)
          rw [List.filter_congr hcong, filter_eq_singleton_of_nodup hnd', if_pos haxs]
        have hbx : b ∉ xs := hxb ▸ hx
        rw [hmapf, allPairs_filter_of_not_mem hab (Or.inr hbx)]
        refine ⟨(x, a), by simp, Or.inr ?_⟩
        rw [hxb]
      · have haxs : a ∈ xs := by
          rcases List.mem_cons.mp hal with rfl | hh
          · exact absurd rfl hxa
          · exact hh
        have hbxs : b ∈ xs := by
          rcases List.mem_cons.mp hbl with rfl | hh
          · exact absurd rfl hxb
          · exact hh
        have hmapf : xs.filter ((fun pq => decide (sortPair pq.1 pq.2 = (a, b))) ∘
            (fun y => (x, y))) = [] := by
          refine List.filter_eq_nil_iff.mpr ?_
          intro y _
          simp only [Function.comp, decide_eq_true_eq]
          intro he
          rcases (sortPair_eq_iff hab x y).mp he with ⟨ha, -⟩ | ⟨ha, -⟩
          · exact hxa ha
          · exact hxb ha
        obtain ⟨pq, hpq, hor⟩ := ih hnd' haxs hbxs
        rw [hmapf, hpq]
        exact ⟨pq, by simp, hor⟩

theorem lookupD_pairStep_ne {t : String} {best : List (String × PRec)} {data : RData}
    {pq K : String × String} (hK : sortPair pq.1 pq.2 ≠ K) :
    lookupD K (pairStep t best data pq) = lookupD K data := by
  rw [pairStep]
  cases h1 : lookupD pq.1 best with
  | none => rfl
  | some r1 =>
    cases h2 : lookupD pq.2 best with
    | none => rfl
    | some r2 =>
      simp only []
      by_cases hlt : r1.rank < r2.rank
      · rw [if_pos hlt, addWin, lookupD_updD_ne (Ne.symm hK)]
      · rw [if_neg hlt]
        by_cases hgt : r2.rank < r1.rank
        · rw [if_pos hgt, addWin, lookupD_updD_ne (Ne.symm hK)]
        · rw [if_neg hgt]

theorem midTracks_pairStep_eq {t : String} {best : List (String × PRec)} {data : RData}
    {pq K : String × String} (hK : sortPair pq.1 pq.2 = K) :
    midTracks (lookupD K (pairStep t best data pq)) =
      if pairDecisive best pq.1 pq.2 then
        (if t ∈ midTracks (lookupD K data) then midTracks (lookupD K data)
         else midTracks (lookupD K data) ++ [t])
      else midTracks (lookupD K data) := by
  rw [pairStep, pairDecisive]
  cases h1 : lookupD pq.1 best with
  | none => simp
  | some r1 =>
    cases h2 : lookupD pq.2 best with
    | none => simp
    | some r2 =>
      simp only []
      by_cases hne : r1.rank = r2.rank
      · rw [if_neg (by rw [hne]; exact lt_irrefl _),
          if_neg (by rw [hne]; exact lt_irrefl _)]
        simp [hne]
      · rw [if_pos (show (decide ¬r1.rank = r2.rank) = true by simp [hne])]
        by_cases hlt : r1.rank < r2.rank
        · rw [if_pos hlt, hK, addWin, lookupD_updD_self]
          simp only [midTracks, Option.getD_some]
          rw [keys_updD]
        · have hgt : r2.rank < r1.rank := lt_of_le_of_ne (le_of_not_lt hlt)
            (fun hh => hne hh.symm)
          rw [if_neg hlt, if_pos hgt, hK, addWin, lookupD_updD_self]
          simp only [midTracks, Option.getD_some]
          rw [keys_updD]

theorem lookupD_foldl_pairs_nil {t : String} {best : List (String × PRec)}
    {K : String × String} :
    ∀ {pairs : List (String × String)},
      (∀ pq ∈ pairs, sortPair pq.1 pq.2 ≠ K) →
      ∀ data, lookupD K (pairs.foldl (pairStep t best) data) = lookupD K data := by
  intro pairs
  induction pairs with
  | nil => intro _ data; rfl
  | cons pq rest ih =>
    intro h data
    rw [List.foldl_cons, ih (fun y hy => h y (List.mem_cons_of_mem _ hy)),
      lookupD_pairStep_ne (h pq (List.mem_cons_self _ _))]

theorem filter_eq_singleton_decomp {α : Type _} {l : List α} {p : α → Bool} {x : α}
    (h : l.filter p = [x]) :
    ∃ l1 l2, l = l1 ++ x :: l2 ∧ (∀ y ∈ l1, p y = false) ∧
      (∀ y ∈ l2, p y = false) := by
  induction l with
  | nil => simp at h
  | cons z zs ih =>
    by_cases hz : p z = true
    · rw [List.filter_cons_of_pos hz] at h
      obtain ⟨rfl, hnil⟩ := List.cons.injEq .. ▸ h
      have hall := List.filter_eq_nil_iff.mp hnil
      exact ⟨[], zs, by simp, by simp, fun y hy => Bool.not_eq_true _ ▸ (by
        have := hall y hy
        simpa using this)⟩
    · rw [List.filter_cons_of_neg hz] at h
      obtain ⟨l1, l2, rfl, h1, h2⟩ := ih h
      exact ⟨z :: l1, l2, rfl, fun y hy => by
        rcases List.mem_cons.mp hy with rfl | hy
        · simpa using hz
        · exact h1 y hy, h2⟩

theorem pairDecisive_comm (best : List (String × PRec)) (p q : String) :
    pairDecisive best p q = pairDecisive best q p := by
  rw [pairDecisive, pairDecisive]
  cases lookupD p best <;> cases lookupD q best <;> simp [ne_comm]

theorem pairDecisive_eq_decisiveOn {l : List PRec} {a b : String}
    (ha : a ∈ playersOf l) (hb : b ∈ playersOf l) :
    pairDecisive (playerBest l) a b = decisiveOn l a b := by
  have hane : a ≠ excludedLogin := (mem_playersOf.mp ha).2
  have hbne : b ≠ excludedLogin := (mem_playersOf.mp hb).2
  have hA := lookupD_playerBest_rank l a
  have hB := lookupD_playerBest_rank l b
  rw [pairDecisive, decisiveOn]
  cases hla : lookupD a (playerBest l) with
  | none =>
    rw [hla] at hA
    simp only [Option.map_none'] at hA
    rw [← hA]
    simp [hane, hbne]
  | some r1 =>
    rw [hla] at hA
    simp only [Option.map_some'] at hA
    cases hlb : lookupD b (playerBest l) with
    | none =>
      rw [hlb] at hB
      simp only [Option.map_none'] at hB
      rw [← hA, ← hB]
      simp [hane, hbne]
    | some r2 =>
      rw [hlb] at hB
      simp only [Option.map_some'] at hB
      rw [← hA, ← hB]
      simp [hane, hbne]

theorem decisiveOn_mem_players {l : List PRec} {a b : String}
    (h : decisiveOn l a b = true) : a ∈ playersOf l ∧ b ∈ playersOf l := by
  rw [decisiveOn] at h
  simp only [Bool.and_eq_true, decide_eq_true_eq] at h
  obtain ⟨⟨hane, hbne⟩, hmatch⟩ := h
  cases hra : bestRank? l a with
  | none => rw [hra] at hmatch; simp at hmatch
  | some va =>
    cases hrb : bestRank? l b with
    | none => rw [hra, hrb] at hmatch; simp at hmatch
    | some vb =>
      refine ⟨mem_playersOf.mpr ⟨?_, hane⟩, mem_playersOf.mpr ⟨?_, hbne⟩⟩
      · intro hnil
        rw [bestRank?_eq_none_iff.mpr hnil] at hra
        exact Option.noConfusion hra
      · intro hnil
        rw [bestRank?_eq_none_iff.mpr hnil] at hrb
        exact Option.noConfusion hrb

theorem processTrack_eq (data : RData) (tl : String × List PRec) :
    processTrack data tl =
      (allPairs (playersOf tl.2)).foldl (pairStep tl.1 (playerBest tl.2)) data := by
  rw [processTrack]
  by_cases h : 2 ≤ tl.2.length
  · rw [if_pos h]
  · rw [if_neg h]
    have : allPairs (playersOf tl.2) = [] := by
      cases hl : tl.2 with
      | nil => rfl
      | cons x rest =>
        cases hrest : rest with
        | nil =>
          rw [playersOf, playerBest]
          by_cases hx : x.login = excludedLogin <;>
            simp [dedupFold, updD, stepBest, allPairs, hx]
        | cons y rest2 =>
          rw [hl, hrest] at h
          exact absurd (by simp) h
    rw [this]
    rfl

theorem midTracks_processTrack {data : RData} {tl : String × List PRec}
    {a b : String} (hab : strLt a b = true)
    (hfresh : tl.1 ∉ midTracks (lookupD (a, b) data)) :
    midTracks (lookupD (a, b) (processTrack data tl)) =
      midTracks (lookupD (a, b) data) ++
        (if decisiveOn tl.2 a b then [tl.1] else []) := by
  rw [processTrack_eq]
  by_cases hmem : a ∈ playersOf tl.2 ∧ b ∈ playersOf tl.2
  · obtain ⟨pq₀, hfilter, hor⟩ :=
      allPairs_filter_sortPair (playersOf_nodup tl.2) hab hmem.1 hmem.2
    obtain ⟨l1, l2, hdec, h1, h2⟩ := filter_eq_singleton_decomp hfilter
    have hpq₀ : sortPair pq₀.1 pq₀.2 = (a, b) := by
      rcases hor with rfl | rfl
      · simp [sortPair, strLt_asymm hab]
      · simp [sortPair, hab]
    have hne1 : ∀ pq ∈ l1, sortPair pq.1 pq.2 ≠ (a, b) := by
      intro pq hpq
      have := h1 pq hpq
      simpa using this
    have hne2 : ∀ pq ∈ l2, sortPair pq.1 pq.2 ≠ (a, b) := by
      intro pq hpq
      have := h2 pq hpq
      simpa using this
    have hA : lookupD (a, b) (l1.foldl (pairStep tl.1 (playerBest tl.2)) data) =
        lookupD (a, b) data := lookupD_foldl_pairs_nil hne1 data
    rw [hdec, List.foldl_append, List.foldl_cons,
      lookupD_foldl_pairs_nil hne2
        (pairStep tl.1 (playerBest tl.2)
          (l1.foldl (pairStep tl.1 (playerBest tl.2)) data) pq₀),
      midTracks_pairStep_eq hpq₀, hA]
    have hdecEq : pairDecisive (playerBest tl.2) pq₀.1 pq₀.2 = decisiveOn tl.2 a b := by
      rcases hor with rfl | rfl
      · exact pairDecisive_eq_decisiveOn hmem.1 hmem.2
      · rw [pairDecisive_comm]
        exact pairDecisive_eq_decisiveOn hmem.1 hmem.2
    rw [hdecEq]
    by_cases hd : decisiveOn tl.2 a b = true
    · simp [hd, hfresh]
    · simp [hd]
  · have hne0 : ∀ pq ∈ allPairs (playersOf tl.2), sortPair pq.1 pq.2 ≠ (a, b) := by
      intro pq hpq
      have h0 := List.filter_eq_nil_iff.mp
        (allPairs_filter_of_not_mem hab (by tauto)) pq hpq
      simpa using h0
    rw [lookupD_foldl_pairs_nil hne0 data]
    have hdec0 : ¬ decisiveOn tl.2 a b = true := by
      intro h
      exact hmem (decisiveOn_mem_players h)
    simp [hdec0]

theorem midTracks_rivalry_fold {a b : String} (hab : strLt a b = true) :
    ∀ (groups : List (String × List PRec)) (data : RData),
      (groups.map (·.1)).Nodup →
      (∀ tl ∈ groups, tl.1 ∉ midTracks (lookupD (a, b) data)) →
      midTracks (lookupD (a, b) (groups.foldl processTrack data)) =
        midTracks (lookupD (a, b) data) ++
          ((groups.filter (fun tl => decisiveOn tl.2 a b)).map (·.1)) := by
  intro groups
  induction groups with
  | nil => intro data _ _; simp
  | cons tl gs ih =>
    intro data hnd hfresh
    obtain ⟨hhd, hnd'⟩ := List.nodup_cons.mp hnd
    rw [List.foldl_cons]
    have hstep := midTracks_processTrack hab (hfresh tl (List.mem_cons_self _ _))
    have hfresh' : ∀ tl' ∈ gs,
        tl'.1 ∉ midTracks (lookupD (a, b) (processTrack data tl)) := by
      intro tl' htl' hmem
      rw [hstep] at hmem
      rcases List.mem_append.mp hmem with hm | hm
      · exact hfresh tl' (List.mem_cons_of_mem _ htl') hm
      · by_cases hd : decisiveOn tl.2 a b = true
        · rw [if_pos hd] at hm
          simp only [List.mem_singleton] at hm
          exact hhd (List.mem_map.mpr ⟨tl', htl', hm⟩)
        · rw [if_neg hd] at hm
          simp at hm
    rw [ih _ hnd' hfresh', hstep, List.filter_cons]
    by_cases hd : decisiveOn tl.2 a b = true
    · simp [hd, List.append_assoc]
    · simp [hd]

theorem trackRecords_keys_nodup (R : List Rec) :
    ((trackRecords R).map (·.1)).Nodup := by
  refine nodup_keys_foldl _ ?_ R [] (by simp)
  intro A r h
  cases hr : rivalryRank? r.rank with
  | none => simpa [hr] using h
  | some ri =>
    simp only [hr]
    exact nodup_keys_updD h

theorem rivalry_data_keys_nodup (R : List Rec) :
    ((rivalry_data R).map (·.1)).Nodup := by
  refine nodup_keys_foldl processTrack ?_ (trackRecords R) [] (by simp)
  intro A tl h
  rw [processTrack_eq]
  refine nodup_keys_foldl (pairStep tl.1 (playerBest tl.2)) ?_
    (allPairs (playersOf tl.2)) A h
  intro A' pq h'
  rw [pairStep]
  cases lookupD pq.1 (playerBest tl.2) with
  | none => exact h'
  | some r1 =>
    cases lookupD pq.2 (playerBest tl.2) with
    | none => exact h'
    | some r2 =>
      simp only []
      by_cases hlt : r1.rank < r2.rank
      · rw [if_pos hlt, addWin]
        exact nodup_keys_updD h'
      · rw [if_neg hlt]
        by_cases hgt : r2.rank < r1.rank
        · rw [if_pos hgt, addWin]
          exact nodup_keys_updD h'
        · rw [if_neg hgt]
          exact h'

theorem midTracks_rivalry_data {R : List Rec} {a b : String} (hab : strLt a b = true) :
    midTracks (lookupD (a, b) (rivalry_data R)) =
      ((trackRecords R).filter (fun tl => decisiveOn tl.2 a b)).map (·.1) := by
  have h := midTracks_rivalry_fold hab (trackRecords R) []
    (trackRecords_keys_nodup R) (by intro tl _; simp [midTracks, lookupD])
  simpa [rivalry_data, midTracks, lookupD] using h

theorem foldl_gate_append {α β : Type _} (P : α → Prop) [DecidablePred P] (g : α → β) :
    ∀ (L : List α) (acc : List β),
      L.foldl (fun acc e => if P e then acc ++ [g e] else acc) acc =
        acc ++ (L.filter (fun e => decide (P e))).map g := by
  intro L
  induction L with
  | nil => intro acc; simp
  | cons e L ih =>
    intro acc
    rw [List.foldl_cons, ih, List.filter_cons]
    by_cases hP : P e
    · simp [hP]
    · simp [hP]

theorem mem_qualifyingPairs {R : List Rec} {K : String × String} :
    K ∈ qualifyingPairs R ↔
      ∃ td, lookupD K (rivalry_data R) = some td ∧ 3 ≤ td.length := by
  rw [qualifyingPairs, foldl_gate_append (fun e => 3 ≤ e.2.length) (·.1)
    (rivalry_data R) []]
  simp only [List.nil_append, List.mem_map, List.mem_filter, decide_eq_true_eq]
  constructor
  · rintro ⟨e, ⟨he, hlen⟩, rfl⟩
    exact ⟨e.2, mem_lookupD (rivalry_data_keys_nodup R) he, hlen⟩
  · rintro ⟨td, hl, hlen⟩
    exact ⟨(K, td), ⟨lookupD_mem hl, hlen⟩, rfl⟩

theorem qualifying_iff_decisive {R : List Rec} {a b : String} (hab : strLt a b = true) :
    (a, b) ∈ qualifyingPairs R ↔ 3 ≤ decisiveTrackCount R a b := by
  rw [mem_qualifyingPairs, decisiveTrackCount]
  have hmid := midTracks_rivalry_data (R := R) hab
  constructor
  · rintro ⟨td, hl, hlen⟩
    rw [hl] at hmid
    have h1 : td.length =
        (((trackRecords R).filter (fun tl => decisiveOn tl.2 a b)).map (·.1)).length := by
      rw [← hmid, midTracks]
      simp
    rw [List.length_map] at h1
    omega
  · intro h3
    cases hl : lookupD (a, b) (rivalry_data R) with
    | none =>
      rw [hl] at hmid
      have : ((trackRecords R).filter (fun tl => decisiveOn tl.2 a b)).length = 0 := by
        have := congrArg List.length hmid
        simpa [midTracks] using this.symm
      omega
    | some td =>
      refine ⟨td, rfl, ?_⟩
      rw [hl] at hmid
      have h1 : td.length =
          ((trackRecords R).filter (fun tl => decisiveOn tl.2 a b)).length := by
        have := congrArg List.length hmid
        simpa [midTracks] using this
      omega

theorem detect_rivalries_length (R : List Rec) :
    (detect_rivalries R).length = (qualifyingPairs R).length := by
  rw [detect_rivalries, (sortDesc_perm (·.shared_tracks) (mkRivalries R)).length_eq]
  show ((rivalry_data R).foldl
      (fun acc e => if 3 ≤ e.2.length then
        acc ++ [mkRivalryEntry (computeLatestNicknames R) e.1 e.2] else acc) []).length =
    (qualifyingPairs R).length
  rw [qualifyingPairs,
    foldl_gate_append (fun e => 3 ≤ e.2.length)
      (fun e => mkRivalryEntry (computeLatestNicknames R) e.1 e.2) (rivalry_data R) [],
    foldl_gate_append (fun e => 3 ≤ e.2.length) (fun e => e.1) (rivalry_data R) []]
  simp

/-- C4 amended.  `detect_rivalries` reports a pair of players (here: the
pair's sorted rivalry key passes the `shared_tracks >= 3` gate, and the
output holds exactly one entry per passing key) if and only if the number of
distinct tracks with a *decisive* head-to-head between the two players — both
distinct from the hard-coded excluded login, both with a rank-parseable
record on the track, and their best coerced ranks different — is at least 3.
Tracks where the pair ties, or where one side's rank is unparsable, do not
count towards `shared_tracks`, so a pair appearing together on 3 distinct
tracks with one tie is NOT reported. -/
theorem C4_rivalry_threshold_amended (R : List Rec) (a b : String) (hab : strLt a b = true) :
    ((a, b) ∈ qualifyingPairs R ↔ 3 ≤ decisiveTrackCount R a b) ∧
    (detect_rivalries R).length = (qualifyingPairs R).length :=
  ⟨qualifying_iff_decisive hab, detect_rivalries_length R⟩

/-- C4 counterexample: players `a` and `b` share exactly 3 distinct tracks
(`t1`, `t2`, `t3`), but on `t3` they tie (both rank 1), so only 2 tracks are
decisive and `detect_rivalries` reports nothing — refuting the claim that a
pair appearing together on ≥ 3 distinct tracks is reported regardless of how
many of those tracks produced a head-to-head win. -/
theorem C4_rivalry_threshold_counterexample :
    (sharedAppearTracks
        [mkRec "a" "t1" "1" "" "", mkRec "b" "t1" "2" "" "",
          mkRec "a" "t2" "1" "" "", mkRec "b" "t2" "2" "" "",
          mkRec "a" "t3" "1" "" "", mkRec "b" "t3" "1" "" ""] "a" "b").length = 3 ∧
    detect_rivalries
        [mkRec "a" "t1" "1" "" "", mkRec "b" "t1" "2" "" "",
          mkRec "a" "t2" "1" "" "", mkRec "b" "t2" "2" "" "",
          mkRec "a" "t3" "1" "" "", mkRec "b" "t3" "1" "" ""] = [] ∧
    qualifyingPairs
        [mkRec "a" "t1" "1" "" "", mkRec "b" "t1" "2" "" "",
          mkRec "a" "t2" "1" "" "", mkRec "b" "t2" "2" "" "",
          mkRec "a" "t3" "1" "" "", mkRec "b" "t3" "1" "" ""] = [] ∧
    decisiveTrackCount
        [mkRec "a" "t1" "1" "" "", mkRec "b" "t1" "2" "" "",
          mkRec "a" "t2" "1" "" "", mkRec "b" "t2" "2" "" "",
          mkRec "a" "t3" "1" "" "", mkRec "b" "t3" "1" "" ""] "a" "b" = 2 := by
  refine ⟨by decide, by decide, by decide, by decide⟩

/-- Witness for the amended C4: with the `t3` tie replaced by a decisive
rank-1-vs-rank-2 result, all 3 shared tracks are decisive and the pair is
reported. -/
theorem C4_rivalry_threshold_amended_witness :
    (("a", "b") ∈ qualifyingPairs
        [mkRec "a" "t1" "1" "" "", mkRec "b" "t1" "2" "" "",
          mkRec "a" "t2" "1" "" "", mkRec "b" "t2" "2" "" "",
          mkRec "a" "t3" "1" "" "", mkRec "b" "t3" "2" "" ""] ↔
      3 ≤ decisiveTrackCount
        [mkRec "a" "t1" "1" "" "", mkRec "b" "t1" "2" "" "",
          mkRec "a" "t2" "1" "" "", mkRec "b" "t2" "2" "" "",
          mkRec "a" "t3" "1" "" "", mkRec "b" "t3" "2" "" ""] "a" "b") ∧
    ("a", "b") ∈ qualifyingPairs
        [mkRec "a" "t1" "1" "" "", mkRec "b" "t1" "2" "" "",
          mkRec "a" "t2" "1" "" "", mkRec "b" "t2" "2" "" "",
          mkRec "a" "t3" "1" "" "", mkRec "b" "t3" "2" "" ""] ∧
    decisiveTrackCount
        [mkRec "a" "t1" "1" "" "", mkRec "b" "t1" "2" "" "",
          mkRec "a" "t2" "1" "" "", mkRec "b" "t2" "2" "" "",
          mkRec "a" "t3" "1" "" "", mkRec "b" "t3" "2" "" ""] "a" "b" = 3 :=
  ⟨(C4_rivalry_threshold_amended
      [mkRec "a" "t1" "1" "" "", mkRec "b" "t1" "2" "" "",
        mkRec "a" "t2" "1" "" "", mkRec "b" "t2" "2" "" "",
        mkRec "a" "t3" "1" "" "", mkRec "b" "t3" "2" "" ""] "a" "b" (by decide)).1,
    by decide, by decide⟩

end TmDedimania
